import Mathlib

/-!
# Visual Leak Detector, `utility.cpp`

A shallow embedding of `patchimport` and `restoreimport` (utility.cpp,
lines 192-246 and 301-354) together with the services they call, and of the
helpers `booltostr`, `dumpmemory`, `strapp` and `strtobool` of the same file,
whose conventions are stated where they are defined.

Modelling conventions.

* Addresses, handles and slot values are natural numbers; `0` is `NULL`.
  `LPCVOID`, `FARPROC` and `DWORD_PTR` all have pointer width, so the casts
  `(DWORD_PTR)replacement` and `(DWORD_PTR)import` preserve the value.
* The unit of an address is one pointer-sized cell (`IMAGE_THUNK_DATA`), so
  `iate++` is `iate + 1`.
* `Process.mem` is the mapped cell memory; a read past its end is an access
  violation.  The descriptor array handed out by
  `ImageDirectoryEntryToDataEx` is the list of descriptors that are mapped
  from the returned pointer onwards; walking past its end is an access
  violation as well.
* The import directory, the name strings and the export tables live apart from
  the thunk cells: the only store of either function is the one to
  `iate->u1.Function`.
* `assert` is active (debug build): a failed assertion halts the process.
* ANSI strings are lists of characters (without the terminating NUL).
-/

namespace VLD

/-- One entry of the Import Directory Table (winnt.h), field for field. -/
structure IMAGE_IMPORT_DESCRIPTOR where
  OriginalFirstThunk : Nat
  TimeDateStamp : Nat
  ForwarderChain : Nat
  Name : Nat
  FirstThunk : Nat
deriving DecidableEq, Repr

/-- The part of the process the two functions can observe or change. -/
structure Process where
  /-- What `ImageDirectoryEntryToDataEx(module, TRUE, IMAGE_DIRECTORY_ENTRY_IMPORT, ..)`
  yields: `none` for `NULL`, else the descriptors mapped from the pointer on. -/
  directory : Nat → Option (List IMAGE_IMPORT_DESCRIPTOR)
  /-- The NUL-terminated string stored at an address. -/
  cstring : Nat → List Char
  /-- Loaded-image lookup by name; `0` when the image is not loaded. -/
  moduleHandle : List Char → Nat
  /-- Export-address lookup in a loaded image; `0` when not exported. -/
  procAddress : Nat → List Char → Nat
  /-- The page an address lies in. -/
  pageOf : Nat → Nat
  /-- The pointer-sized cells of mapped memory, by address. -/
  mem : List Nat
  /-- The protection flags of each page. -/
  prot : Nat → Nat

/-- How a call ends: it returns (with the process state it leaves behind),
an `assert` fails, or a read leaves mapped memory. -/
inductive Outcome where
  | returned (p : Process)
  | assertionFailed
  | accessViolation

/-- The constant `PAGE_READWRITE` of winnt.h. -/
def PAGE_READWRITE : Nat := 0x04

/-- Modelled from the spec: the macro `R2VA` of utility.h, which is not among
the sources; it turns an offset relative to the image base (the "offset of the
current thunk table", the name offset) into an address by adding the base. -/
def R2VA (modulebase rva : Nat) : Nat := modulebase + rva

/-- The C library `tolower` in the "C" locale. -/
def tolower (c : Char) : Char :=
  if 'A' ≤ c ∧ c ≤ 'Z' then Char.ofNat (c.toNat + 32) else c

/-- The C library `_stricmp`: compares the lower-cased strings and returns the
difference at the first position where they differ (`0` when there is none). -/
def _stricmp : List Char → List Char → Int
  | [], [] => 0
  | [], b :: _ => 0 - ((tolower b).toNat : Int)
  | a :: _, [] => ((tolower a).toNat : Int)
  | a :: as, b :: bs =>
    if tolower a = tolower b then _stricmp as bs
    else ((tolower a).toNat : Int) - ((tolower b).toNat : Int)

/-- `ImageDirectoryEntryToDataEx` for the import directory of a module. -/
def ImageDirectoryEntryToDataEx (p : Process) (module : Nat) :
    Option (List IMAGE_IMPORT_DESCRIPTOR) :=
  p.directory module

/-- `GetModuleHandleA`. -/
def GetModuleHandleA (p : Process) (name : List Char) : Nat :=
  p.moduleHandle name

/-- `GetProcAddress`. -/
def GetProcAddress (p : Process) (module : Nat) (name : List Char) : Nat :=
  p.procAddress module name

/-- `VirtualProtect` on the page holding `lpAddress` (its success path): the
page gets `flNewProtect`, and the flags it had are handed back through
`lpflOldProtect`.  The range is one aligned slot, which lies in one page. -/
def VirtualProtect (p : Process) (lpAddress flNewProtect : Nat) : Process × Nat :=
  ({ p with prot := Function.update p.prot (p.pageOf lpAddress) flNewProtect },
   p.prot (p.pageOf lpAddress))

/-- The store `iate->u1.Function = value`. -/
def store (p : Process) (iate value : Nat) : Process :=
  { p with mem := p.mem.set iate value }

/-- Lines 239-241 (and 347-349): make the slot writable, overwrite it, put the
captured protection back. -/
def swap (p : Process) (iate value : Nat) : Process :=
  let r1 := VirtualProtect p iate PAGE_READWRITE
  let protect := r1.2
  let p2 := store r1.1 iate value
  (VirtualProtect p2 iate protect).1

/-- The loop of lines 211-217 (and 320-326) over the descriptors mapped from
`idte` on.  The result is the descriptor `idte` points at when the loop is
left: a match, or the first descriptor whose `OriginalFirstThunk` is zero;
`none` when the walk leaves the mapped descriptors. -/
def idteLoop (p : Process) (importmodule : Nat) (exportmodulename : List Char) :
    List IMAGE_IMPORT_DESCRIPTOR → Option IMAGE_IMPORT_DESCRIPTOR
  | [] => none
  | idte :: rest =>
    if idte.OriginalFirstThunk ≠ 0 then
      if _stricmp (p.cstring (R2VA importmodule idte.Name)) exportmodulename = 0 then
        some idte
      else idteLoop p importmodule exportmodulename rest
    else some idte

/-- The loop of lines 233-245 (with `target` the real address and `value` the
replacement) and of lines 342-353 (with `target` the replacement and `value`
the real address).  The list holds the cells mapped from `iate` on, so its
head is `iate->u1.Function`. -/
def iateLoop (p : Process) (target value : Nat) : List Nat → Nat → Outcome
  | [], _ => Outcome.accessViolation
  | function :: rest, iate =>
    if function ≠ 0 then
      if function = target then Outcome.returned (swap p iate value)
      else iateLoop p target value rest (iate + 1)
    else Outcome.returned p

/-- The function `patchimport` of utility.cpp (lines 192-246).  `realaddr`
stands for the C variable named `import`, a reserved word here. -/
def patchimport (p : Process) (importmodule : Nat)
    (exportmodulename importname : List Char) (replacement : Nat) : Outcome :=
  match ImageDirectoryEntryToDataEx p importmodule with
  | none => Outcome.returned p
  | some table =>
    match idteLoop p importmodule exportmodulename table with
    | none => Outcome.accessViolation
    | some idte =>
      if idte.OriginalFirstThunk = 0 then Outcome.returned p
      else
        let exportmodule := GetModuleHandleA p exportmodulename
        if exportmodule = 0 then Outcome.assertionFailed
        else
          let realaddr := GetProcAddress p exportmodule importname
          if realaddr = 0 then Outcome.assertionFailed
          else
            let iate := R2VA importmodule idte.FirstThunk
            iateLoop p realaddr replacement (p.mem.drop iate) iate

/-- The function `restoreimport` of utility.cpp (lines 301-354).  `realaddr`
stands for the C variable named `import`, a reserved word here. -/
def restoreimport (p : Process) (importmodule : Nat)
    (exportmodulename importname : List Char) (replacement : Nat) : Outcome :=
  match ImageDirectoryEntryToDataEx p importmodule with
  | none => Outcome.returned p
  | some table =>
    match idteLoop p importmodule exportmodulename table with
    | none => Outcome.accessViolation
    | some idte =>
      if idte.OriginalFirstThunk = 0 then Outcome.returned p
      else
        let exportmodule := GetModuleHandleA p exportmodulename
        if exportmodule = 0 then Outcome.assertionFailed
        else
          let realaddr := GetProcAddress p exportmodule importname
          if realaddr = 0 then Outcome.assertionFailed
          else
            let iate := R2VA importmodule idte.FirstThunk
            iateLoop p replacement realaddr (p.mem.drop iate) iate

/-! ## Vocabulary of the statements -/

/-- Runs a second call on the state the first one returned; a call that did
not return ends the sequence. -/
def Outcome.andThen : Outcome → (Process → Outcome) → Outcome
  | Outcome.returned p, f => f p
  | Outcome.assertionFailed, _ => Outcome.assertionFailed
  | Outcome.accessViolation, _ => Outcome.accessViolation

/-- The cell memory a call leaves behind, when it returns. -/
def Outcome.cells : Outcome → Option (List Nat)
  | Outcome.returned p => some p.mem
  | Outcome.assertionFailed => none
  | Outcome.accessViolation => none

/-- The first stage of both functions (lines 206-222, 315-331) on its own: the
descriptor with which they go on to export resolution, `none` when they
return (or fault) before it. -/
def locate (p : Process) (importmodule : Nat) (exportmodulename : List Char) :
    Option IMAGE_IMPORT_DESCRIPTOR :=
  match ImageDirectoryEntryToDataEx p importmodule with
  | none => none
  | some table =>
    match idteLoop p importmodule exportmodulename table with
    | none => none
    | some idte => if idte.OriginalFirstThunk = 0 then none else some idte

/-- The entries of the sentinel-terminated slot array that starts at address
`a`: the cells from `a` on that come before the first zero-valued cell. -/
def slots (p : Process) (a : Nat) : List Nat :=
  (p.mem.drop a).takeWhile (fun v => decide (v ≠ 0))

/-- The descriptors of a descriptor array: those before the first one whose
`OriginalFirstThunk` is zero. -/
def descriptors (table : List IMAGE_IMPORT_DESCRIPTOR) : List IMAGE_IMPORT_DESCRIPTOR :=
  table.takeWhile (fun d => decide (d.OriginalFirstThunk ≠ 0))

/-- The data-model invariants on the metadata of one importing image: its
descriptor array has a terminating descriptor, and the slot array of each of
its descriptors has a zero-valued sentinel in mapped memory. -/
@[reducible] def WellFormed (p : Process) (importmodule : Nat) : Prop :=
  ∀ table ∈ ImageDirectoryEntryToDataEx p importmodule,
    (∃ d ∈ table, d.OriginalFirstThunk = 0) ∧
    ∀ d ∈ descriptors table, 0 ∈ p.mem.drop (R2VA importmodule d.FirstThunk)

/-- Export resolution (lines 226-229, 334-337) passes both assertions. -/
@[reducible] def Resolves (p : Process) (exportmodulename importname : List Char) : Prop :=
  GetModuleHandleA p exportmodulename ≠ 0 ∧
  GetProcAddress p (GetModuleHandleA p exportmodulename) importname ≠ 0

/-- The value `import` of both functions: the real address of the symbol. -/
def realAddress (p : Process) (exportmodulename importname : List Char) : Nat :=
  GetProcAddress p (GetModuleHandleA p exportmodulename) importname

/-- The contract violation of export resolution: the descriptor for the
exporting-image name was located, and the exporting image is not loaded or
does not export the symbol. -/
@[reducible] def ContractViolation (p : Process) (importmodule : Nat)
    (exportmodulename importname : List Char) : Prop :=
  (locate p importmodule exportmodulename).isSome = true ∧
    (GetModuleHandleA p exportmodulename = 0 ∨
      GetProcAddress p (GetModuleHandleA p exportmodulename) importname = 0)

/-! ## A sample process -/

/-- The name under which the sample exporter is asked for. -/
def kernel32 : List Char := "kernel32.dll".toList

/-- The symbol the sample image draws from its exporter. -/
def heapAlloc : List Char := "HeapAlloc".toList

/-- A process whose image at base 16 has one descriptor, for `KERNEL32.dll`
(name at offset 2), with its slot array at offset 4, that is at address 20,
where the cells `table` are mapped up to the end of memory.  `HeapAlloc`
resolves to `0x1000` in the exporter, which has the handle 100 when `loaded`.
The image at base 48 has no import directory. -/
def sampleProcess (table : List Nat) (loaded : Bool) : Process where
  directory := fun m =>
    if m = 16 then some [⟨40, 0, 0, 2, 4⟩, ⟨0, 0, 0, 0, 0⟩] else none
  cstring := fun a => if a = 18 then "KERNEL32.dll".toList else []
  moduleHandle := fun name => if loaded = true ∧ _stricmp name kernel32 = 0 then 100 else 0
  procAddress := fun m name => if m = 100 ∧ name = heapAlloc then 0x1000 else 0
  pageOf := fun a => a / 512
  mem := List.replicate 20 0 ++ table
  prot := fun _ => 0x02

/-- The descriptor of the sample image. -/
def sampleDescriptor : IMAGE_IMPORT_DESCRIPTOR := ⟨40, 0, 0, 2, 4⟩

/-! ## Vocabulary of the locator -/

/-- The character NUL, which ends a C string and is never part of one. -/
def NUL : Char := Char.ofNat 0

/-- Equality of two names under ASCII case-insensitive comparison: they agree
once the letters `A` to `Z` are mapped to `a` to `z`. -/
@[reducible] def EqIgnoreAsciiCase (a b : List Char) : Prop :=
  a.map tolower = b.map tolower

/-- The all-zero descriptor. -/
def nullDescriptor : IMAGE_IMPORT_DESCRIPTOR := ⟨0, 0, 0, 0, 0⟩

/-- The descriptors that precede the all-zero sentinel descriptor, in the
words of the specification. -/
def descriptorsBeforeAllZero (table : List IMAGE_IMPORT_DESCRIPTOR) :
    List IMAGE_IMPORT_DESCRIPTOR :=
  table.takeWhile (fun d => decide (d ≠ nullDescriptor))

/-- A process whose image at base 16 has two descriptors before the all-zero
one: the first, for `USER32.dll` (name at offset 30), has no original thunk
table (`OriginalFirstThunk` is zero, as some linkers leave it) and its slot
array at offset 8; the second is the `KERNEL32.dll` descriptor of the sample
image. -/
def unboundFirstProcess : Process where
  directory := fun m =>
    if m = 16 then some [⟨0, 0, 0, 30, 8⟩, ⟨40, 0, 0, 2, 4⟩, ⟨0, 0, 0, 0, 0⟩] else none
  cstring := fun a =>
    if a = 18 then "KERNEL32.dll".toList else if a = 46 then "USER32.dll".toList else []
  moduleHandle := fun name => if _stricmp name kernel32 = 0 then 100 else 0
  procAddress := fun m name => if m = 100 ∧ name = heapAlloc then 0x1000 else 0
  pageOf := fun a => a / 512
  mem := List.replicate 20 0 ++ [0x1000, 0, 0, 0, 0x5000, 0]
  prot := fun _ => 0x02

/-! ## The string helpers: `booltostr`, `strapp`, `strtobool`

`BOOL` is `int`.  A pointer to characters is modelled by the buffer it points
into: the list of the characters from the pointer to the end of the
allocation, in which the string ends at the first NUL.  A read or write
outside a buffer has no defined result (`none`).  `TCHAR` is `char`, so the
`_tcs` functions are the `str` functions. -/

/-- The constant `TRUE` of windef.h. -/
def TRUE : Int := 1

/-- The function `booltostr` of utility.cpp (lines 53-61). -/
def booltostr (b : Int) : List Char :=
  if b = TRUE then "true".toList else "false".toList

/-- The string held by a buffer: its characters before the first NUL. -/
def cstr (buf : List Char) : List Char :=
  buf.takeWhile (fun c => decide (c ≠ NUL))

/-- The C library `_tcslen`; the scan leaves a buffer that holds no NUL. -/
def _tcslen (buf : List Char) : Option Nat :=
  if NUL ∈ buf then some (cstr buf).length else none

/-- The allocation `new TCHAR [n]`: `n` characters whose first content is
whatever the allocator left there, given by `junk`. -/
def newTCHAR (junk : Nat → Char) (n : Nat) : List Char :=
  (List.range n).map junk

/-- The C library `_tcsncpy(dst, src, count)`: the first `count` characters of
the string at `src` are copied; when the string is shorter, NULs are written up
to `count` characters in all; no NUL is written when it is not shorter. -/
def _tcsncpy (dst src : List Char) (count : Nat) : Option (List Char) :=
  if (count ≤ (cstr src).length ∨ NUL ∈ src) ∧ count ≤ dst.length then
    some ((cstr src).take count ++ List.replicate (count - (cstr src).length) NUL
      ++ dst.drop count)
  else none

/-- The C library `_tcsncat(dst, src, count)`: the end of the string at `dst`
is looked for, then at most `count` characters of the string at `src` and a
NUL are written from there on. -/
def _tcsncat (dst src : List Char) (count : Nat) : Option (List Char) :=
  if NUL ∈ dst ∧ (count ≤ (cstr src).length ∨ NUL ∈ src) ∧
      (cstr dst).length + min count (cstr src).length + 1 ≤ dst.length then
    some (cstr dst ++ (cstr src).take count ++ [NUL]
      ++ dst.drop ((cstr dst).length + min count (cstr src).length + 1))
  else none

/-- The function `strapp` of utility.cpp (lines 391-402), with `dest` the
buffer `*dest` points into on entry; the result is the buffer `*dest` points
into on return. -/
def strapp (junk : Nat → Char) (dest source : List Char) : Option (List Char) :=
  let temp := dest
  match _tcslen dest, _tcslen source with
  | some l1, some l2 =>
    let length := l1 + l2
    let fresh := newTCHAR junk (length + 1)
    match _tcsncpy fresh temp length with
    | none => none
    | some copied => _tcsncat copied source length
  | _, _ => none

/-- The constant `LONG_MAX` of limits.h (`long` has 32 bits). -/
def LONG_MAX : Int := 2147483647

/-- The constant `LONG_MIN` of limits.h. -/
def LONG_MIN : Int := -2147483648

/-- The C library `isspace` in the "C" locale: the space and the characters
9 to 13. -/
def isspace (c : Char) : Bool :=
  decide (c = ' ' ∨ (9 ≤ c.toNat ∧ c.toNat ≤ 13))

/-- The C library `isdigit`. -/
def isdigit (c : Char) : Bool :=
  decide (48 ≤ c.toNat ∧ c.toNat ≤ 57)

/-- The number that a run of decimal digits denotes. -/
def digitsValue (digits : List Char) : Nat :=
  digits.foldl (fun acc c => acc * 10 + (c.toNat - 48)) 0

/-- The C library `_tcstol(s, &end, 10)`, of which the caller uses the value
only: white space is skipped, a sign is read if there is one, then the longest
run of decimal digits is converted (to zero when it is empty), whatever
follows it; a value out of range is clamped. -/
def _tcstol (s : List Char) : Int :=
  match s.dropWhile isspace with
  | [] => 0
  | c :: t =>
    if c = '-' then max LONG_MIN (-(digitsValue (t.takeWhile isdigit) : Int))
    else if c = '+' then min LONG_MAX (digitsValue (t.takeWhile isdigit) : Int)
    else min LONG_MAX (digitsValue ((c :: t).takeWhile isdigit) : Int)

/-- The C library `_tcsicmp`, which is `_stricmp` for `char`. -/
def _tcsicmp (a b : List Char) : Int := _stricmp a b

/-- The function `strtobool` of utility.cpp (lines 414-426), on the string
`s` (its characters before the NUL). -/
def strtobool (s : List Char) : Bool :=
  if _tcsicmp s "true".toList = 0 ∨ _tcsicmp s "yes".toList = 0 ∨
      _tcsicmp s "on".toList = 0 ∨ _tcstol s = 1 then true
  else false

/-- In the words of the specification: `s` is the decimal integer 1, that is
an optional plus sign and decimal digits only, of value 1. -/
def isDecimalOne (s : List Char) : Bool :=
  match s with
  | [] => false
  | c :: t =>
    if c = '+' then decide (t ≠ [] ∧ t.all isdigit = true ∧ digitsValue t = 1)
    else decide ((c :: t).all isdigit = true ∧ digitsValue (c :: t) = 1)

/-- In the words of the specification: `s` is recognised as a "true" string. -/
@[reducible] def RecognisedTrue (s : List Char) : Prop :=
  EqIgnoreAsciiCase s "true".toList ∨ EqIgnoreAsciiCase s "yes".toList ∨
    EqIgnoreAsciiCase s "on".toList ∨ isDecimalOne s = true

/-- The strings that `_tcstol` converts to 1: white space, an optional plus
sign, zeros and a single `1`, followed by the end of the string or by any
character that is not a digit. -/
def StartsWithOne (s : List Char) : Prop :=
  ∃ ws sign zeros rest, s = ws ++ sign ++ zeros ++ '1' :: rest ∧
    (∀ c ∈ ws, isspace c = true) ∧ (sign = [] ∨ sign = ['+']) ∧
    (∀ c ∈ zeros, c = '0') ∧ (∀ c ∈ rest.head?, isdigit c = false)

/-! ## `dumpmemory`

`unsigned long` has 32 bits, so the assignment to `dumplen` is taken modulo
`2 ^ 32`; `byte` and `bytesdone` stay below `dumplen` and never wrap.  The
region is given by `address`, the byte stored at each index.  The state of the
loop records, next to the two buffers, the messages handed to `report` and the
indices of the region that were read. -/

/-- The C library `isprint` in the "C" locale, on an `unsigned char`. -/
def isprint (c : Nat) : Bool :=
  decide (32 ≤ c ∧ c ≤ 126)

/-- One upper-case hexadecimal digit. -/
def hexDigit (n : Nat) : Char :=
  if n < 10 then Char.ofNat (48 + n) else Char.ofNat (55 + n)

/-- The content of `formatbuf` after `sprintf(formatbuf, "%.2X ", datum)`,
for an `unsigned char`: two hexadecimal digits, a space and the NUL. -/
def sprintfHex (datum : Nat) : List Char :=
  [hexDigit (datum / 16), hexDigit (datum % 16), ' ', NUL]

/-- The string literal of three spaces, with its NUL. -/
def threeSpaces : List Char := [' ', ' ', ' ', NUL]

/-- The call `strncpy(buf + off, src, count)`; the characters of `buf` before
`off` stay. -/
def strncpyAt (buf : List Char) (off : Nat) (src : List Char) (count : Nat) :
    Option (List Char) :=
  if off ≤ buf.length then
    (_tcsncpy (buf.drop off) src count).map (fun r => buf.take off ++ r)
  else none

/-- The store `buf[i] = c` into an array. -/
def storeAt (buf : List Char) (i : Nat) (c : Char) : Option (List Char) :=
  if i < buf.length then some (buf.set i c) else none

/-- The function `report` of utility.cpp (lines 262-280) as `dumpmemory` calls
it, with the format of four spaces, `%s`, four spaces, `%s` and a newline: the
message it hands to the file or the debugger, cut to `MAXREPORTLENGTH`
characters (a constant of utility.h, which is not among the sources, taken as
a parameter). -/
def report (MAXREPORTLENGTH : Nat) (hexdump ascdump : List Char) : Option (List Char) :=
  if NUL ∈ hexdump ∧ NUL ∈ ascdump then
    some (("    ".toList ++ cstr hexdump ++ "    ".toList ++ cstr ascdump ++ ['\n']).take
      MAXREPORTLENGTH)
  else none

/-- The variables of `dumpmemory` that change in its loop, the messages
reported so far, and the indices of the region read so far. -/
structure DumpState where
  hexdump : List Char
  ascdump : List Char
  bytesdone : Nat
  lines : List (List Char)
  reads : List Nat

/-- The value given to `dumplen` (lines 88-95). -/
def dumplen (size : Nat) : Nat :=
  (if size % 16 = 0 then size else size + (16 - size % 16)) % 2 ^ 32

/-- The body of the loop of `dumpmemory` (lines 101-134). -/
def dumpStep (MAXREPORTLENGTH : Nat) (address : Nat → Nat) (size : Nat) (st : DumpState)
    (byte : Nat) : Option DumpState :=
  let hexindex := 3 * ((byte % 16) + ((byte % 16) / 4))
  let ascindex := (byte % 16) + (byte % 16) / 8
  let filled : Option (List Char × List Char × List Nat) :=
    if byte < size then
      let datum := address byte % 256
      match strncpyAt st.hexdump hexindex (sprintfHex datum) 4,
        storeAt st.ascdump ascindex
          (if isprint datum = true ∧ datum ≠ 32 then Char.ofNat datum else '.') with
      | some hex, some asc => some (hex, asc, st.reads ++ [byte])
      | _, _ => none
    else
      match strncpyAt st.hexdump hexindex threeSpaces 4,
        storeAt st.ascdump ascindex '.' with
      | some hex, some asc => some (hex, asc, st.reads)
      | _, _ => none
  match filled with
  | none => none
  | some (hex, asc, reads) =>
    let bytesdone := st.bytesdone + 1
    if bytesdone % 16 = 0 then
      match report MAXREPORTLENGTH hex asc with
      | none => none
      | some line => some ⟨hex, asc, bytesdone, st.lines ++ [line], reads⟩
    else
      match (if bytesdone % 8 = 0 then storeAt asc (ascindex + 1) ' ' else some asc) with
      | none => none
      | some asc2 =>
        match (if bytesdone % 4 = 0 then strncpyAt hex (hexindex + 3) threeSpaces 4
          else some hex) with
        | none => none
        | some hex2 => some ⟨hex2, asc2, bytesdone, st.lines, reads⟩

/-- The loop of `dumpmemory` over the values that `byte` takes. -/
def dumpLoop (MAXREPORTLENGTH : Nat) (address : Nat → Nat) (size : Nat) :
    List Nat → DumpState → Option DumpState
  | [], st => some st
  | byte :: rest, st =>
    match dumpStep MAXREPORTLENGTH address size st byte with
    | none => none
    | some st' => dumpLoop MAXREPORTLENGTH address size rest st'

/-- The function `dumpmemory` of utility.cpp (lines 75-136): the state in
which its loop ends, which holds the messages reported and the indices read. -/
def dumpmemory (MAXREPORTLENGTH : Nat) (address : Nat → Nat) (size : Nat) :
    Option DumpState :=
  dumpLoop MAXREPORTLENGTH address size (List.range (dumplen size))
    ⟨List.replicate 58 NUL, List.replicate 18 NUL, 0, [], []⟩

/-! ### The loop body on one line of sixteen positions

The definitions below restate the loop body for position `b` of a line,
without the bounds checks, and give the content of the two buffers when a
line is complete. -/

/-- The buffer `buf` with the characters `cs` written from index `off` on. -/
def writeAt (buf : List Char) (off : Nat) (cs : List Char) : List Char :=
  buf.take off ++ cs ++ buf.drop (off + cs.length)

/-- The first character copied into `hexdump` for `byte`. -/
def hexHigh (address : Nat → Nat) (size byte : Nat) : Char :=
  if byte < size then hexDigit (address byte % 256 / 16) else ' '

/-- The second character copied into `hexdump` for `byte`. -/
def hexLow (address : Nat → Nat) (size byte : Nat) : Char :=
  if byte < size then hexDigit (address byte % 256 % 16) else ' '

/-- The character stored in `ascdump` for `byte`. -/
def ascOf (address : Nat → Nat) (size byte : Nat) : Char :=
  if byte < size then
    (if isprint (address byte % 256) = true ∧ address byte % 256 ≠ 32 then
      Char.ofNat (address byte % 256) else '.')
  else '.'

/-- The index read for `byte`, if any. -/
def readOf (size byte : Nat) : List Nat :=
  if byte < size then [byte] else []

/-- The messages of a call of `report`, none when it has no defined result. -/
def reported (MAXREPORTLENGTH : Nat) (hexdump ascdump : List Char) : List (List Char) :=
  (report MAXREPORTLENGTH hexdump ascdump).toList

/-- The loop body at position `b` of a line, the characters to write being
`h0 b`, `h1 b` (hexadecimal column) and `a b` (ASCII column). -/
def lineStep (MAXREPORTLENGTH : Nat) (h0 h1 a : Nat → Char) (rd : Nat → List Nat)
    (st : DumpState) (b : Nat) : DumpState :=
  let hexindex := 3 * (b + b / 4)
  let ascindex := b + b / 8
  let hex := writeAt st.hexdump hexindex [h0 b, h1 b, ' ', NUL]
  let asc := st.ascdump.set ascindex (a b)
  if (b + 1) % 16 = 0 then
    ⟨hex, asc, st.bytesdone + 1, st.lines ++ reported MAXREPORTLENGTH hex asc,
      st.reads ++ rd b⟩
  else
    ⟨if (b + 1) % 4 = 0 then writeAt hex (hexindex + 3) threeSpaces else hex,
      if (b + 1) % 8 = 0 then asc.set (ascindex + 1) ' ' else asc,
      st.bytesdone + 1, st.lines, st.reads ++ rd b⟩

/-- The hexadecimal column of a complete line: for each position two
characters and a space, and three more spaces after every fourth position but
the last. -/
def hexLine (h0 h1 : Nat → Char) : List Char :=
  (List.range 16).flatMap (fun b =>
    [h0 b, h1 b, ' '] ++ (if b % 4 = 3 ∧ b ≠ 15 then [' ', ' ', ' '] else []))

/-- The hexadecimal column when `n` positions of a line are done. -/
def hexPrefix (h0 h1 : Nat → Char) (n : Nat) : List Char :=
  (List.range n).flatMap (fun b =>
    [h0 b, h1 b, ' '] ++ (if b % 4 = 3 ∧ b ≠ 15 then [' ', ' ', ' '] else []))

/-- The ASCII column when `n` positions of a line are done. -/
def ascPrefix (a : Nat → Char) (n : Nat) : List Char :=
  (List.range n).flatMap (fun b => a b :: (if b = 7 then [' '] else []))

/-- The state of the two buffers when `b` positions of a line are done: the
columns so far, followed by what is left of the buffers, the hexadecimal one
ending in a NUL where the column ends, the ASCII one in its last character. -/
def LineInv (h0 h1 a : Nat → Char) (b : Nat) (st : DumpState) : Prop :=
  ∃ tail atail, st.hexdump = hexPrefix h0 h1 b ++ tail ∧
    (hexPrefix h0 h1 b).length + tail.length = 58 ∧
    (0 < b → tail.head? = some NUL) ∧
    st.ascdump = ascPrefix a b ++ atail ∧
    (ascPrefix a b).length + atail.length = 18 ∧
    atail.getLast? = some NUL

/-- The ASCII column of a complete line: one character for each position, and
a space after the eighth. -/
def ascLine (a : Nat → Char) : List Char :=
  (List.range 16).flatMap (fun b => a b :: (if b = 7 then [' '] else []))

/-- The hexadecimal column of line `q` of the dump of a region. -/
def hexLineOf (address : Nat → Nat) (size q : Nat) : List Char :=
  hexLine (fun b => hexHigh address size (16 * q + b))
    (fun b => hexLow address size (16 * q + b))

/-- The ASCII column of line `q` of the dump of a region. -/
def ascLineOf (address : Nat → Nat) (size q : Nat) : List Char :=
  ascLine (fun b => ascOf address size (16 * q + b))

/-- The message reported for line `q` of the dump of a region. -/
def lineOf (MAXREPORTLENGTH : Nat) (address : Nat → Nat) (size q : Nat) : List Char :=
  ("    ".toList ++ hexLineOf address size q ++ "    ".toList ++ ascLineOf address size q
    ++ ['\n']).take MAXREPORTLENGTH

/-! ## The swap and the two loops -/

theorem swap_eq (p : Process) (k v : Nat) :
    swap p k v = { p with mem := p.mem.set k v } := by
  simp [swap, VirtualProtect, store, Function.update_idem, Function.update_eq_self]

theorem iateLoop_found (p : Process) (target value : Nat) (ht : target ≠ 0) :
    ∀ (cs : List Nat) (a j : Nat), cs[j]? = some target →
      (∀ i, i < j → ∃ v, cs[i]? = some v ∧ v ≠ 0 ∧ v ≠ target) →
      iateLoop p target value cs a = Outcome.returned (swap p (a + j) value) := by
  intro cs
  induction cs with
  | nil => intro a j h; simp at h
  | cons c rest ih =>
    intro a j hj hpre
    cases j with
    | zero =>
      simp at hj
      subst hj
      simp [iateLoop, ht]
    | succ j =>
      obtain ⟨v, hv, hv0, hvt⟩ := hpre 0 (Nat.succ_pos j)
      simp at hv
      subst hv
      have hrec := ih (a + 1) j (by simpa using hj) (by
        intro i hi
        have := hpre (i + 1) (Nat.succ_lt_succ hi)
        simpa using this)
      simp [iateLoop, hv0, hvt, hrec]
      congr 1
      omega

theorem iateLoop_absent (p : Process) (target value : Nat) :
    ∀ (cs : List Nat) (a z : Nat), cs[z]? = some 0 →
      (∀ i, i < z → cs[i]? ≠ some target) →
      iateLoop p target value cs a = Outcome.returned p := by
  intro cs
  induction cs with
  | nil => intro a z h; simp at h
  | cons c rest ih =>
    intro a z hz hpre
    by_cases hc : c = 0
    · simp [iateLoop, hc]
    · cases z with
      | zero => simp at hz; exact absurd hz hc
      | succ z =>
        have hct : c ≠ target := by
          have := hpre 0 (Nat.succ_pos z)
          simpa using this
        have hrec := ih (a + 1) z (by simpa using hz) (by
          intro i hi
          have := hpre (i + 1) (Nat.succ_lt_succ hi)
          simpa using this)
        simp [iateLoop, hc, hct, hrec]

theorem iateLoop_shape (p : Process) (target value : Nat) :
    ∀ (cs : List Nat) (a : Nat),
      iateLoop p target value cs a = Outcome.accessViolation ∨
      iateLoop p target value cs a = Outcome.returned p ∨
      ∃ j, cs[j]? = some target ∧ target ≠ 0 ∧
        (∀ i, i < j → ∃ v, cs[i]? = some v ∧ v ≠ 0 ∧ v ≠ target) ∧
        iateLoop p target value cs a = Outcome.returned (swap p (a + j) value) := by
  intro cs
  induction cs with
  | nil => intro a; left; rfl
  | cons c rest ih =>
    intro a
    by_cases hc : c = 0
    · right; left; simp [iateLoop, hc]
    · by_cases hct : c = target
      · right; right
        subst hct
        refine ⟨0, by simp, hc, fun i hi => absurd hi (Nat.not_lt_zero i), ?_⟩
        simp [iateLoop, hc]
      · have hstep : iateLoop p target value (c :: rest) a
            = iateLoop p target value rest (a + 1) := by
          simp [iateLoop, hc, hct]
        rw [hstep]
        rcases ih (a + 1) with h | h | ⟨j, hj, ht, hpre, h⟩
        · left; exact h
        · right; left; exact h
        · right; right
          refine ⟨j + 1, by simpa using hj, ht, ?_, ?_⟩
          · intro i hi
            cases i with
            | zero => exact ⟨c, by simp, hc, hct⟩
            | succ i => simpa using hpre i (by omega)
          · have hadd : a + 1 + j = a + (j + 1) := by omega
            rw [h, hadd]

theorem iateLoop_returns (p : Process) (target value : Nat) :
    ∀ (cs : List Nat) (a : Nat), 0 ∈ cs →
      ∃ p', iateLoop p target value cs a = Outcome.returned p' := by
  intro cs
  induction cs with
  | nil => intro a h; simp at h
  | cons c rest ih =>
    intro a h0
    by_cases hc : c = 0
    · exact ⟨p, by simp [iateLoop, hc]⟩
    · by_cases hct : c = target
      · subst hct
        exact ⟨swap p a value, by simp [iateLoop, hc]⟩
      · have hmem : 0 ∈ rest := by
          rcases List.mem_cons.mp h0 with h | h
          · exact absurd h.symm hc
          · exact h
        obtain ⟨p', hp'⟩ := ih (a + 1) hmem
        exact ⟨p', by simp [iateLoop, hc, hct, hp']⟩

/-! ## Sentinel-terminated arrays -/

theorem takeWhile_nonzero_getElem? :
    ∀ (cs : List Nat) (j v : Nat),
      (cs.takeWhile (fun v => decide (v ≠ 0)))[j]? = some v → cs[j]? = some v ∧ v ≠ 0 := by
  intro cs
  induction cs with
  | nil => intro j v h; simp at h
  | cons c rest ih =>
    intro j v h
    by_cases hc : c = 0
    · simp [List.takeWhile_cons, hc] at h
    · simp only [List.takeWhile_cons, hc, ne_eq, not_false_eq_true, decide_True, if_true] at h
      cases j with
      | zero =>
        simp at h
        subst h
        exact ⟨by simp, hc⟩
      | succ j => simpa using ih j v (by simpa using h)

theorem getElem?_takeWhile_nonzero :
    ∀ (cs : List Nat) (i : Nat), i < (cs.takeWhile (fun v => decide (v ≠ 0))).length →
      (cs.takeWhile (fun v => decide (v ≠ 0)))[i]? = cs[i]? := by
  intro cs
  induction cs with
  | nil => intro i h; simp at h
  | cons c rest ih =>
    intro i h
    by_cases hc : c = 0
    · simp [List.takeWhile_cons, hc] at h
    · simp only [List.takeWhile_cons, hc, ne_eq, not_false_eq_true, decide_True, if_true] at h ⊢
      cases i with
      | zero => simp
      | succ i => simpa using ih i (by simpa using h)

theorem sentinel_at_length :
    ∀ (cs : List Nat), 0 ∈ cs →
      cs[(cs.takeWhile (fun v => decide (v ≠ 0))).length]? = some 0 := by
  intro cs
  induction cs with
  | nil => intro h; simp at h
  | cons c rest ih =>
    intro h
    by_cases hc : c = 0
    · simp [List.takeWhile_cons, hc]
    · have hmem : 0 ∈ rest := by
        rcases List.mem_cons.mp h with h | h
        · exact absurd h.symm hc
        · exact h
      simpa [List.takeWhile_cons, hc] using ih hmem

/-- A slot of a sentinel-terminated array, seen in the cells: it holds a
non-zero value, and so does every cell before it. -/
theorem slot_in_cells (cs : List Nat) (j t : Nat)
    (hj : (cs.takeWhile (fun v => decide (v ≠ 0)))[j]? = some t) :
    cs[j]? = some t ∧ t ≠ 0 ∧ ∀ i, i < j → ∃ v, cs[i]? = some v ∧ v ≠ 0 ∧
      (cs.takeWhile (fun v => decide (v ≠ 0)))[i]? = some v := by
  obtain ⟨h1, h2⟩ := takeWhile_nonzero_getElem? cs j t hj
  refine ⟨h1, h2, ?_⟩
  intro i hi
  have hjlt : j < (cs.takeWhile (fun v => decide (v ≠ 0))).length := by
    obtain ⟨h, _⟩ := List.getElem?_eq_some.mp hj
    exact h
  have hilt : i < (cs.takeWhile (fun v => decide (v ≠ 0))).length := Nat.lt_trans hi hjlt
  have hsome : (cs.takeWhile (fun v => decide (v ≠ 0)))[i]?
      = some ((cs.takeWhile (fun v => decide (v ≠ 0)))[i]) := List.getElem?_eq_getElem hilt
  obtain ⟨h3, h4⟩ := takeWhile_nonzero_getElem? cs i _ hsome
  exact ⟨_, h3, h4, hsome⟩

/-- The first slot that holds `t`, seen in the cells. -/
theorem first_slot_in_cells (cs : List Nat) (j t : Nat)
    (hj : (cs.takeWhile (fun v => decide (v ≠ 0)))[j]? = some t)
    (hfirst : ∀ i, i < j → (cs.takeWhile (fun v => decide (v ≠ 0)))[i]? ≠ some t) :
    cs[j]? = some t ∧ t ≠ 0 ∧ ∀ i, i < j → ∃ v, cs[i]? = some v ∧ v ≠ 0 ∧ v ≠ t := by
  obtain ⟨h1, h2, h3⟩ := slot_in_cells cs j t hj
  refine ⟨h1, h2, ?_⟩
  intro i hi
  obtain ⟨v, hv, hv0, hvs⟩ := h3 i hi
  refine ⟨v, hv, hv0, ?_⟩
  intro hvt
  exact hfirst i hi (hvt ▸ hvs)

/-- A terminated array without `t` among its slots, seen in the cells. -/
theorem absent_in_cells (cs : List Nat) (t : Nat) (h0 : 0 ∈ cs)
    (habs : t ∉ cs.takeWhile (fun v => decide (v ≠ 0))) :
    ∃ z : Nat, cs[z]? = some 0 ∧ ∀ i : Nat, i < z → cs[i]? ≠ some t := by
  refine ⟨(cs.takeWhile (fun v => decide (v ≠ 0))).length, sentinel_at_length cs h0, ?_⟩
  intro i hi hit
  rw [← getElem?_takeWhile_nonzero cs i hi] at hit
  exact habs (List.mem_iff_getElem?.mpr ⟨i, hit⟩)

/-! ## The locator -/

theorem idteLoop_cstring (p q : Process) (h : q.cstring = p.cstring) (m : Nat)
    (e : List Char) :
    ∀ table, idteLoop q m e table = idteLoop p m e table := by
  intro table
  induction table with
  | nil => rfl
  | cons d rest ih => simp [idteLoop, h, ih]

theorem locate_congr (p q : Process) (hd : q.directory = p.directory)
    (hc : q.cstring = p.cstring) (m : Nat) (e : List Char) :
    locate q m e = locate p m e := by
  simp [locate, ImageDirectoryEntryToDataEx, hd, idteLoop_cstring p q hc]

theorem locate_swap (p : Process) (k v m : Nat) (e : List Char) :
    locate (swap p k v) m e = locate p m e := by
  rw [swap_eq]
  exact locate_congr p { p with mem := p.mem.set k v } rfl rfl m e

theorem patchimport_of_locate (p : Process) (m : Nat) (e n : List Char) (r : Nat)
    (idte : IMAGE_IMPORT_DESCRIPTOR) (hloc : locate p m e = some idte) :
    patchimport p m e n r =
      if GetModuleHandleA p e = 0 then Outcome.assertionFailed
      else if realAddress p e n = 0 then Outcome.assertionFailed
      else iateLoop p (realAddress p e n) r (p.mem.drop (R2VA m idte.FirstThunk))
        (R2VA m idte.FirstThunk) := by
  unfold locate at hloc
  unfold patchimport realAddress
  cases hdir : ImageDirectoryEntryToDataEx p m with
  | none => simp [hdir] at hloc
  | some table =>
    simp only [hdir] at hloc ⊢
    cases hloop : idteLoop p m e table with
    | none => simp [hloop] at hloc
    | some d =>
      simp only [hloop] at hloc ⊢
      by_cases hd : d.OriginalFirstThunk = 0
      · simp [hd] at hloc
      · simp only [hd, if_false] at hloc ⊢
        cases hloc
        rfl

theorem restoreimport_of_locate (p : Process) (m : Nat) (e n : List Char) (r : Nat)
    (idte : IMAGE_IMPORT_DESCRIPTOR) (hloc : locate p m e = some idte) :
    restoreimport p m e n r =
      if GetModuleHandleA p e = 0 then Outcome.assertionFailed
      else if realAddress p e n = 0 then Outcome.assertionFailed
      else iateLoop p r (realAddress p e n) (p.mem.drop (R2VA m idte.FirstThunk))
        (R2VA m idte.FirstThunk) := by
  unfold locate at hloc
  unfold restoreimport realAddress
  cases hdir : ImageDirectoryEntryToDataEx p m with
  | none => simp [hdir] at hloc
  | some table =>
    simp only [hdir] at hloc ⊢
    cases hloop : idteLoop p m e table with
    | none => simp [hloop] at hloc
    | some d =>
      simp only [hloop] at hloc ⊢
      by_cases hd : d.OriginalFirstThunk = 0
      · simp [hd] at hloc
      · simp only [hd, if_false] at hloc ⊢
        cases hloc
        rfl

theorem patchimport_of_locate_none (p : Process) (m : Nat) (e n : List Char) (r : Nat)
    (hloc : locate p m e = none) :
    patchimport p m e n r = Outcome.returned p ∨
      patchimport p m e n r = Outcome.accessViolation := by
  unfold locate at hloc
  unfold patchimport
  cases hdir : ImageDirectoryEntryToDataEx p m with
  | none => left; rfl
  | some table =>
    simp only [hdir] at hloc ⊢
    cases hloop : idteLoop p m e table with
    | none => right; rfl
    | some d =>
      simp only [hloop] at hloc ⊢
      by_cases hd : d.OriginalFirstThunk = 0
      · left; simp [hd]
      · simp [hd] at hloc

theorem restoreimport_of_locate_none (p : Process) (m : Nat) (e n : List Char) (r : Nat)
    (hloc : locate p m e = none) :
    restoreimport p m e n r = Outcome.returned p ∨
      restoreimport p m e n r = Outcome.accessViolation := by
  unfold locate at hloc
  unfold restoreimport
  cases hdir : ImageDirectoryEntryToDataEx p m with
  | none => left; rfl
  | some table =>
    simp only [hdir] at hloc ⊢
    cases hloop : idteLoop p m e table with
    | none => right; rfl
    | some d =>
      simp only [hloop] at hloc ⊢
      by_cases hd : d.OriginalFirstThunk = 0
      · left; simp [hd]
      · simp [hd] at hloc

theorem resolution_swap (p : Process) (k v : Nat) (e n : List Char) :
    GetModuleHandleA (swap p k v) e = GetModuleHandleA p e ∧
      realAddress (swap p k v) e n = realAddress p e n := by
  rw [swap_eq]
  exact ⟨rfl, rfl⟩

theorem set_of_getElem? (l : List Nat) (k x : Nat) (h : l[k]? = some x) :
    l.set k x = l := by
  apply List.ext_getElem?
  intro i
  rw [List.getElem?_set]
  by_cases hki : k = i
  · subst hki
    obtain ⟨hlt, _⟩ := List.getElem?_eq_some.mp h
    simp [hlt, h]
  · simp [hki]

theorem drop_set_add (l : List Nat) (a j v : Nat) :
    (l.set (a + j) v).drop a = (l.drop a).set j v := by
  rw [List.set_drop]

/-- The patch loop finds the first cell of the located table that holds the
real address, and swaps it. -/
theorem patchimport_found_cells (p : Process) (m : Nat) (e n : List Char) (r : Nat)
    (idte : IMAGE_IMPORT_DESCRIPTOR) (j : Nat)
    (hloc : locate p m e = some idte) (hres : Resolves p e n)
    (hj : (p.mem.drop (R2VA m idte.FirstThunk))[j]? = some (realAddress p e n))
    (hpre : ∀ i, i < j → ∃ v, (p.mem.drop (R2VA m idte.FirstThunk))[i]? = some v ∧
      v ≠ 0 ∧ v ≠ realAddress p e n) :
    patchimport p m e n r
      = Outcome.returned (swap p (R2VA m idte.FirstThunk + j) r) := by
  have h1 : GetModuleHandleA p e ≠ 0 := hres.1
  have h2 : realAddress p e n ≠ 0 := hres.2
  rw [patchimport_of_locate p m e n r idte hloc]
  simp only [h1, h2, if_false]
  exact iateLoop_found p _ r h2 _ _ j hj hpre

/-- The restore loop finds the first cell of the located table that holds the
replacement, and swaps it. -/
theorem restoreimport_found_cells (p : Process) (m : Nat) (e n : List Char) (r : Nat)
    (idte : IMAGE_IMPORT_DESCRIPTOR) (j : Nat)
    (hloc : locate p m e = some idte) (hres : Resolves p e n) (hr : r ≠ 0)
    (hj : (p.mem.drop (R2VA m idte.FirstThunk))[j]? = some r)
    (hpre : ∀ i, i < j → ∃ v, (p.mem.drop (R2VA m idte.FirstThunk))[i]? = some v ∧
      v ≠ 0 ∧ v ≠ r) :
    restoreimport p m e n r
      = Outcome.returned (swap p (R2VA m idte.FirstThunk + j) (realAddress p e n)) := by
  have h1 : GetModuleHandleA p e ≠ 0 := hres.1
  have h2 : realAddress p e n ≠ 0 := hres.2
  rw [restoreimport_of_locate p m e n r idte hloc]
  simp only [h1, h2, if_false]
  exact iateLoop_found p r _ hr _ _ j hj hpre

theorem mem_swap_getElem? (p : Process) (a j v x : Nat)
    (h : (p.mem.drop a)[j]? = some x) :
    (swap p (a + j) v).mem[a + j]? = some v := by
  rw [swap_eq]
  rw [List.getElem?_drop] at h
  obtain ⟨hlt, _⟩ := List.getElem?_eq_some.mp h
  simp [List.getElem?_set, hlt]

/-- Patch, then restore: when the replacement is not zero and is in no slot
before the one that gets patched, the process is back in its first state. -/
theorem patch_then_restore (p : Process) (m : Nat) (e n : List Char) (r : Nat)
    (idte : IMAGE_IMPORT_DESCRIPTOR) (j : Nat)
    (hloc : locate p m e = some idte) (hres : Resolves p e n)
    (hj : (slots p (R2VA m idte.FirstThunk))[j]? = some (realAddress p e n))
    (hfirst : ∀ i, i < j →
      (slots p (R2VA m idte.FirstThunk))[i]? ≠ some (realAddress p e n))
    (hr : r ≠ 0)
    (hrpre : ∀ i, i < j → (slots p (R2VA m idte.FirstThunk))[i]? ≠ some r) :
    patchimport p m e n r
        = Outcome.returned (swap p (R2VA m idte.FirstThunk + j) r) ∧
      restoreimport (swap p (R2VA m idte.FirstThunk + j) r) m e n r
        = Outcome.returned p := by
  obtain ⟨hc, _, hpre⟩ := first_slot_in_cells _ j _ hj hfirst
  obtain ⟨_, _, hpre2⟩ := slot_in_cells _ j _ hj
  refine ⟨patchimport_found_cells p m e n r idte j hloc hres hc hpre, ?_⟩
  have hmem : (swap p (R2VA m idte.FirstThunk + j) r).mem
      = p.mem.set (R2VA m idte.FirstThunk + j) r := by rw [swap_eq]
  obtain ⟨hmod, hreal⟩ := resolution_swap p (R2VA m idte.FirstThunk + j) r e n
  have hres2 : Resolves (swap p (R2VA m idte.FirstThunk + j) r) e n := by
    have h := hres
    unfold Resolves at h ⊢
    unfold realAddress at hreal
    rw [hmod] at hreal ⊢
    rw [hreal]
    exact h
  have hlt : j < (p.mem.drop (R2VA m idte.FirstThunk)).length := by
    obtain ⟨h, _⟩ := List.getElem?_eq_some.mp hc
    exact h
  have hfound := restoreimport_found_cells (swap p (R2VA m idte.FirstThunk + j) r) m e n r
    idte j (by rw [locate_swap]; exact hloc) hres2 hr
    (by rw [hmem, drop_set_add, List.getElem?_set]; simp only [if_true, hlt])
    (by
      intro i hi
      obtain ⟨v, hv, hv0, hvs⟩ := hpre2 i hi
      refine ⟨v, ?_, hv0, ?_⟩
      · rw [hmem, drop_set_add, List.getElem?_set_ne (by omega)]
        exact hv
      · intro hvr
        exact hrpre i hi (hvr ▸ hvs))
  rw [List.getElem?_drop] at hc
  rw [hfound, hreal, swap_eq, swap_eq]
  dsimp only
  rw [List.set_set, set_of_getElem? p.mem _ _ hc]

theorem slot_of_cells :
    ∀ (cs : List Nat) (j t : Nat), cs[j]? = some t → t ≠ 0 →
      (∀ i, i < j → ∃ v, cs[i]? = some v ∧ v ≠ 0) →
      (cs.takeWhile (fun v => decide (v ≠ 0)))[j]? = some t := by
  intro cs
  induction cs with
  | nil => intro j t h; simp at h
  | cons c rest ih =>
    intro j t hj ht hpre
    cases j with
    | zero =>
      simp at hj
      subst hj
      simp [List.takeWhile_cons, ht]
    | succ j =>
      obtain ⟨v, hv, hv0⟩ := hpre 0 (Nat.succ_pos j)
      simp at hv
      subst hv
      have hrec := ih j t (by simpa using hj) ht (by
        intro i hi
        have := hpre (i + 1) (Nat.succ_lt_succ hi)
        simpa using this)
      simpa [List.takeWhile_cons, hv0] using hrec

theorem idteLoop_mem_descriptors (p : Process) (m : Nat) (e : List Char)
    (idte : IMAGE_IMPORT_DESCRIPTOR) (hne : idte.OriginalFirstThunk ≠ 0) :
    ∀ table, idteLoop p m e table = some idte → idte ∈ descriptors table := by
  intro table
  induction table with
  | nil => intro h; simp [idteLoop] at h
  | cons d rest ih =>
    intro h
    by_cases hd : d.OriginalFirstThunk = 0
    · simp [idteLoop, hd] at h
      subst h
      exact absurd hd hne
    · by_cases hs : _stricmp (p.cstring (R2VA m d.Name)) e = 0
      · simp [idteLoop, hd, hs] at h
        subst h
        simp [descriptors, List.takeWhile_cons, hd]
      · simp [idteLoop, hd, hs] at h
        have hrec := ih h
        simp only [descriptors, List.takeWhile_cons, hd, ne_eq, not_false_eq_true,
          decide_True, if_true] at hrec ⊢
        exact List.mem_cons_of_mem _ hrec

theorem locate_mem_descriptors (p : Process) (m : Nat) (e : List Char)
    (idte : IMAGE_IMPORT_DESCRIPTOR) (hloc : locate p m e = some idte) :
    ∃ table, ImageDirectoryEntryToDataEx p m = some table ∧ idte ∈ descriptors table := by
  unfold locate at hloc
  cases hdir : ImageDirectoryEntryToDataEx p m with
  | none => simp [hdir] at hloc
  | some table =>
    simp only [hdir] at hloc
    cases hloop : idteLoop p m e table with
    | none => simp [hloop] at hloc
    | some d =>
      simp only [hloop] at hloc
      by_cases hd : d.OriginalFirstThunk = 0
      · simp [hd] at hloc
      · simp only [hd, if_false] at hloc
        cases hloc
        exact ⟨table, rfl, idteLoop_mem_descriptors p m e idte hd table hloop⟩

theorem wellFormed_terminated (p : Process) (m : Nat) (e : List Char)
    (idte : IMAGE_IMPORT_DESCRIPTOR) (hwf : WellFormed p m)
    (hloc : locate p m e = some idte) : 0 ∈ p.mem.drop (R2VA m idte.FirstThunk) := by
  obtain ⟨table, hdir, hmem⟩ := locate_mem_descriptors p m e idte hloc
  exact (hwf table hdir).2 idte hmem

theorem idteLoop_terminated (p : Process) (m : Nat) (e : List Char) :
    ∀ table, (∃ d ∈ table, d.OriginalFirstThunk = 0) →
      ∃ idte, idteLoop p m e table = some idte := by
  intro table
  induction table with
  | nil => intro h; simp at h
  | cons d rest ih =>
    intro h
    by_cases hd : d.OriginalFirstThunk = 0
    · exact ⟨d, by simp [idteLoop, hd]⟩
    · by_cases hs : _stricmp (p.cstring (R2VA m d.Name)) e = 0
      · exact ⟨d, by simp [idteLoop, hd, hs]⟩
      · obtain ⟨x, hx, hx0⟩ := h
        have hrest : ∃ d ∈ rest, d.OriginalFirstThunk = 0 := by
          rcases List.mem_cons.mp hx with hxd | hxr
          · exact absurd (hxd ▸ hx0) hd
          · exact ⟨x, hxr, hx0⟩
        obtain ⟨idte, hidte⟩ := ih hrest
        exact ⟨idte, by simp [idteLoop, hd, hs, hidte]⟩

theorem idteLoop_no_match (p : Process) (m : Nat) (e : List Char) :
    ∀ table, (∃ d ∈ table, d.OriginalFirstThunk = 0) →
      (∀ d ∈ descriptors table, _stricmp (p.cstring (R2VA m d.Name)) e ≠ 0) →
      ∃ idte, idteLoop p m e table = some idte ∧ idte.OriginalFirstThunk = 0 := by
  intro table
  induction table with
  | nil => intro h; simp at h
  | cons d rest ih =>
    intro h hno
    by_cases hd : d.OriginalFirstThunk = 0
    · exact ⟨d, by simp [idteLoop, hd], hd⟩
    · have hdesc : descriptors (d :: rest) = d :: descriptors rest := by
        simp only [descriptors, List.takeWhile_cons, hd, ne_eq, not_false_eq_true,
          decide_True, if_true]
      have hs : _stricmp (p.cstring (R2VA m d.Name)) e ≠ 0 :=
        hno d (by rw [hdesc]; exact List.mem_cons_self _ _)
      obtain ⟨x, hx, hx0⟩ := h
      have hrest : ∃ d ∈ rest, d.OriginalFirstThunk = 0 := by
        rcases List.mem_cons.mp hx with hxd | hxr
        · exact absurd (hxd ▸ hx0) hd
        · exact ⟨x, hxr, hx0⟩
      obtain ⟨idte, hidte, hz⟩ := ih hrest (fun d' hd' =>
        hno d' (by rw [hdesc]; exact List.mem_cons_of_mem _ hd'))
      exact ⟨idte, by simp [idteLoop, hd, hs, hidte], hz⟩

/-- What a returning `patchimport` has done: nothing, or one swap of the first
cell of the located table that held the real address. -/
theorem patchimport_returned (p : Process) (m : Nat) (e n : List Char) (r : Nat)
    (p' : Process) (h : patchimport p m e n r = Outcome.returned p') :
    p' = p ∨ ∃ idte j, locate p m e = some idte ∧ realAddress p e n ≠ 0 ∧
      (p.mem.drop (R2VA m idte.FirstThunk))[j]? = some (realAddress p e n) ∧
      (∀ i, i < j → ∃ v, (p.mem.drop (R2VA m idte.FirstThunk))[i]? = some v ∧ v ≠ 0 ∧
        v ≠ realAddress p e n) ∧
      p' = swap p (R2VA m idte.FirstThunk + j) r := by
  cases hloc : locate p m e with
  | none =>
    rcases patchimport_of_locate_none p m e n r hloc with h' | h'
    · rw [h'] at h
      left
      exact (Outcome.returned.inj h).symm
    · rw [h'] at h
      cases h
  | some idte =>
    rw [patchimport_of_locate p m e n r idte hloc] at h
    by_cases h1 : GetModuleHandleA p e = 0
    · simp only [h1, if_true] at h
      cases h
    · by_cases h2 : realAddress p e n = 0
      · simp only [h1, h2, if_true, if_false] at h
        cases h
      · simp only [h1, h2, if_false] at h
        rcases iateLoop_shape p (realAddress p e n) r (p.mem.drop (R2VA m idte.FirstThunk))
          (R2VA m idte.FirstThunk) with h' | h' | ⟨j, hj, _, hpre, h'⟩
        · rw [h'] at h
          cases h
        · rw [h'] at h
          left
          exact (Outcome.returned.inj h).symm
        · rw [h'] at h
          right
          exact ⟨idte, j, rfl, h2, hj, hpre, (Outcome.returned.inj h).symm⟩

/-- What a returning `restoreimport` has done: nothing, or one swap of the
first cell of the located table that held the replacement. -/
theorem restoreimport_returned (p : Process) (m : Nat) (e n : List Char) (r : Nat)
    (p' : Process) (h : restoreimport p m e n r = Outcome.returned p') :
    p' = p ∨ ∃ idte j, locate p m e = some idte ∧ realAddress p e n ≠ 0 ∧ r ≠ 0 ∧
      (p.mem.drop (R2VA m idte.FirstThunk))[j]? = some r ∧
      (∀ i, i < j → ∃ v, (p.mem.drop (R2VA m idte.FirstThunk))[i]? = some v ∧ v ≠ 0 ∧
        v ≠ r) ∧
      p' = swap p (R2VA m idte.FirstThunk + j) (realAddress p e n) := by
  cases hloc : locate p m e with
  | none =>
    rcases restoreimport_of_locate_none p m e n r hloc with h' | h'
    · rw [h'] at h
      left
      exact (Outcome.returned.inj h).symm
    · rw [h'] at h
      cases h
  | some idte =>
    rw [restoreimport_of_locate p m e n r idte hloc] at h
    by_cases h1 : GetModuleHandleA p e = 0
    · simp only [h1, if_true] at h
      cases h
    · by_cases h2 : realAddress p e n = 0
      · simp only [h1, h2, if_true, if_false] at h
        cases h
      · simp only [h1, h2, if_false] at h
        rcases iateLoop_shape p r (realAddress p e n) (p.mem.drop (R2VA m idte.FirstThunk))
          (R2VA m idte.FirstThunk) with h' | h' | ⟨j, hj, hr, hpre, h'⟩
        · rw [h'] at h
          cases h
        · rw [h'] at h
          left
          exact (Outcome.returned.inj h).symm
        · rw [h'] at h
          right
          exact ⟨idte, j, rfl, h2, hr, hj, hpre, (Outcome.returned.inj h).symm⟩

theorem takeWhile_length_of_map (f g : Nat → Bool) :
    ∀ (l l' : List Nat), l.map f = l'.map g →
      (l.takeWhile f).length = (l'.takeWhile g).length := by
  intro l
  induction l with
  | nil =>
    intro l' h
    cases l' with
    | nil => rfl
    | cons c' rest' => simp at h
  | cons c rest ih =>
    intro l' h
    cases l' with
    | nil => simp at h
    | cons c' rest' =>
      simp only [List.map_cons, List.cons.injEq] at h
      obtain ⟨hc, hrest⟩ := h
      simp only [List.takeWhile_cons, hc]
      cases hg : g c' with
      | false => simp
      | true => simp [ih rest' hrest]

/-- Overwriting a non-zero cell with a non-zero value keeps the length of
every sentinel-terminated array. -/
theorem slots_length_set (l : List Nat) (k t v a : Nat) (hk : l[k]? = some t)
    (ht : t ≠ 0) (hv : v ≠ 0) :
    (((l.set k v).drop a).takeWhile (fun v => decide (v ≠ 0))).length
      = ((l.drop a).takeWhile (fun v => decide (v ≠ 0))).length := by
  apply takeWhile_length_of_map
  rw [List.map_drop, List.map_drop, List.map_set]
  congr 1
  apply List.ext_getElem?
  intro i
  rw [List.getElem?_set]
  by_cases hki : k = i
  · subst hki
    obtain ⟨hlt, hval⟩ := List.getElem?_eq_some.mp hk
    simp [hlt, hval, ht, hv]
  · simp [hki]

/-! ## The properties of the specification -/

/-- C1, as amended.  Round trip: when the import exists (the descriptor is
located, export resolution succeeds and slot `j` is the first slot of the
located table that holds the real address), the replacement is not zero and no
slot before slot `j` holds the replacement, then `patchimport` followed by
`restoreimport` with the same arguments leaves slot `j` with the value it had
before `patchimport`. -/
theorem patch_restore_round_trip (p : Process) (m : Nat) (e n : List Char) (r : Nat)
    (idte : IMAGE_IMPORT_DESCRIPTOR) (j : Nat)
    (hloc : locate p m e = some idte) (hres : Resolves p e n)
    (hj : (slots p (R2VA m idte.FirstThunk))[j]? = some (realAddress p e n))
    (hfirst : ∀ i, i < j →
      (slots p (R2VA m idte.FirstThunk))[i]? ≠ some (realAddress p e n))
    (hr : r ≠ 0)
    (hrpre : ∀ i, i < j → (slots p (R2VA m idte.FirstThunk))[i]? ≠ some r) :
    ∃ p' p'', patchimport p m e n r = Outcome.returned p' ∧
      restoreimport p' m e n r = Outcome.returned p'' ∧
      p''.mem[R2VA m idte.FirstThunk + j]? = p.mem[R2VA m idte.FirstThunk + j]? := by
  obtain ⟨h1, h2⟩ := patch_then_restore p m e n r idte j hloc hres hj hfirst hr hrpre
  exact ⟨_, _, h1, h2, rfl⟩

/-- The round trip of C1 on the sample image with the table
`0x3000, 0x1000, 0x4000, 0` and the replacement `0x2000`. -/
theorem patch_restore_round_trip_witness :
    ∃ p' p'', patchimport (sampleProcess [0x3000, 0x1000, 0x4000, 0] true) 16 kernel32
        heapAlloc 0x2000 = Outcome.returned p' ∧
      restoreimport p' 16 kernel32 heapAlloc 0x2000 = Outcome.returned p'' ∧
      p''.mem[R2VA 16 sampleDescriptor.FirstThunk + 1]?
        = (sampleProcess [0x3000, 0x1000, 0x4000, 0] true).mem[
            R2VA 16 sampleDescriptor.FirstThunk + 1]? :=
  patch_restore_round_trip (sampleProcess [0x3000, 0x1000, 0x4000, 0] true) 16 kernel32
    heapAlloc 0x2000 sampleDescriptor 1 (by decide) (by decide) (by decide) (by decide)
    (by decide) (by decide)

/-- C1 fails as stated.  On the table `0x2000, 0x1000, 0` the import exists
(slot 1 holds the real address `0x1000`), yet after `patchimport` and
`restoreimport` with the replacement `0x2000` slot 1 holds `0x2000`: the
restore found the replacement in slot 0.  On the table `0x1000, 0` with the
replacement `0` the slot is left holding `0`. -/
theorem round_trip_fails_on_collision :
    (locate (sampleProcess [0x2000, 0x1000, 0] true) 16 kernel32 = some sampleDescriptor ∧
      Resolves (sampleProcess [0x2000, 0x1000, 0] true) kernel32 heapAlloc ∧
      realAddress (sampleProcess [0x2000, 0x1000, 0] true) kernel32 heapAlloc = 0x1000 ∧
      (slots (sampleProcess [0x2000, 0x1000, 0] true) 20)[1]? = some 0x1000 ∧
      (sampleProcess [0x2000, 0x1000, 0] true).mem[21]? = some 0x1000 ∧
      ((patchimport (sampleProcess [0x2000, 0x1000, 0] true) 16 kernel32 heapAlloc
          0x2000).andThen
        (fun p' => restoreimport p' 16 kernel32 heapAlloc 0x2000)).cells
        = some (List.replicate 20 0 ++ [0x1000, 0x2000, 0])) ∧
    (locate (sampleProcess [0x1000, 0] true) 16 kernel32 = some sampleDescriptor ∧
      (slots (sampleProcess [0x1000, 0] true) 20)[0]? = some 0x1000 ∧
      ((patchimport (sampleProcess [0x1000, 0] true) 16 kernel32 heapAlloc 0).andThen
        (fun p' => restoreimport p' 16 kernel32 heapAlloc 0)).cells
        = some (List.replicate 20 0 ++ [0, 0])) := by
  decide

/-- C2, as amended.  Single patch: on a well-formed image in which at most one
slot of the located table (before its zero sentinel) holds the real address,
calling `patchimport` twice with identical arguments ends exactly as calling
it once: the second call leaves every slot unchanged. -/
theorem patchimport_twice (p : Process) (m : Nat) (e n : List Char) (r : Nat)
    (hwf : WellFormed p m)
    (huniq : ∀ idte, locate p m e = some idte → ∀ i j : Nat,
      (slots p (R2VA m idte.FirstThunk))[i]? = some (realAddress p e n) →
      (slots p (R2VA m idte.FirstThunk))[j]? = some (realAddress p e n) → i = j) :
    (patchimport p m e n r).andThen (fun p' => patchimport p' m e n r)
      = patchimport p m e n r := by
  cases hloc : locate p m e with
  | none =>
    rcases patchimport_of_locate_none p m e n r hloc with h | h
    · rw [h]; exact h
    · rw [h]; rfl
  | some idte =>
    have hpatch := patchimport_of_locate p m e n r idte hloc
    by_cases h1 : GetModuleHandleA p e = 0
    · simp only [h1, if_true] at hpatch
      rw [hpatch]; rfl
    · by_cases h2 : realAddress p e n = 0
      · simp only [h1, h2, if_true, if_false] at hpatch
        rw [hpatch]; rfl
      · simp only [h1, h2, if_false] at hpatch
        rcases iateLoop_shape p (realAddress p e n) r (p.mem.drop (R2VA m idte.FirstThunk))
          (R2VA m idte.FirstThunk) with h | h | ⟨j, hj, _, hpre, h⟩
        · rw [hpatch, h]; rfl
        · rw [hpatch, h]
          show patchimport p m e n r = Outcome.returned p
          rw [hpatch, h]
        · rw [hpatch, h]
          show patchimport (swap p (R2VA m idte.FirstThunk + j) r) m e n r
            = Outcome.returned (swap p (R2VA m idte.FirstThunk + j) r)
          obtain ⟨hmod, hreal⟩ := resolution_swap p (R2VA m idte.FirstThunk + j) r e n
          rw [patchimport_of_locate _ m e n r idte (by rw [locate_swap]; exact hloc)]
          rw [hmod, hreal]
          simp only [h1, h2, if_false]
          have hmem : (swap p (R2VA m idte.FirstThunk + j) r).mem
              = p.mem.set (R2VA m idte.FirstThunk + j) r := by rw [swap_eq]
          rw [hmem, drop_set_add]
          by_cases hrr : r = realAddress p e n
          · rw [hrr, set_of_getElem? _ _ _ hj, iateLoop_found _ _ _ h2 _ _ j hj hpre]
            rw [swap_eq, swap_eq]
            dsimp only
            rw [List.set_set]
          · have hslot : (slots p (R2VA m idte.FirstThunk))[j]? = some (realAddress p e n) :=
              slot_of_cells _ j _ hj h2 (fun i hi => by
                obtain ⟨v, hv, hv0, _⟩ := hpre i hi
                exact ⟨v, hv, hv0⟩)
            have h0 := wellFormed_terminated p m e idte hwf hloc
            have hz := sentinel_at_length _ h0
            have hjz : j < (slots p (R2VA m idte.FirstThunk)).length := by
              obtain ⟨hlt, _⟩ := List.getElem?_eq_some.mp hslot
              exact hlt
            apply iateLoop_absent _ _ _ _ _ (slots p (R2VA m idte.FirstThunk)).length
            · rw [List.getElem?_set_ne (by omega)]
              exact hz
            · intro i hi hi2
              by_cases hij : j = i
              · subst hij
                rw [List.getElem?_set] at hi2
                have hlt : j < (p.mem.drop (R2VA m idte.FirstThunk)).length := by
                  obtain ⟨hlt, _⟩ := List.getElem?_eq_some.mp hj
                  exact hlt
                simp only [if_true, hlt] at hi2
                exact hrr (Option.some.inj hi2)
              · rw [List.getElem?_set_ne hij] at hi2
                have hs : (slots p (R2VA m idte.FirstThunk))[i]? = some (realAddress p e n) := by
                  unfold slots
                  rw [getElem?_takeWhile_nonzero _ i hi]
                  exact hi2
                exact hij (huniq idte hloc j i hslot hs)

/-- The single-patch guarantee of C2 on the sample image with the table
`0x3000, 0x1000, 0x4000, 0`. -/
theorem patchimport_twice_witness :
    (patchimport (sampleProcess [0x3000, 0x1000, 0x4000, 0] true) 16 kernel32 heapAlloc
        0x2000).andThen (fun p' => patchimport p' 16 kernel32 heapAlloc 0x2000)
      = patchimport (sampleProcess [0x3000, 0x1000, 0x4000, 0] true) 16 kernel32 heapAlloc
        0x2000 :=
  patchimport_twice (sampleProcess [0x3000, 0x1000, 0x4000, 0] true) 16 kernel32 heapAlloc
    0x2000 (by decide) (by
      intro idte hloc i j hi hj
      have hlen : (slots (sampleProcess [0x3000, 0x1000, 0x4000, 0] true) 20).length = 3 := by
        decide
      have hd : idte = sampleDescriptor := by
        have h : locate (sampleProcess [0x3000, 0x1000, 0x4000, 0] true) 16 kernel32
            = some sampleDescriptor := by decide
        rw [h] at hloc
        exact (Option.some.inj hloc).symm
      subst hd
      have hI : i < 3 := by
        obtain ⟨h, _⟩ := List.getElem?_eq_some.mp hi
        exact hlen ▸ h
      have hJ : j < 3 := by
        obtain ⟨h, _⟩ := List.getElem?_eq_some.mp hj
        exact hlen ▸ h
      interval_cases i <;> interval_cases j <;> first | rfl | (revert hi hj; decide))

/-- C2 fails as stated.  On the table `0x1000, 0x1000, 0`, where two slots hold
the real address `0x1000`, the first `patchimport` changes slot 0 and the
second one changes slot 1. -/
theorem second_patch_mutates_duplicate :
    (patchimport (sampleProcess [0x1000, 0x1000, 0] true) 16 kernel32 heapAlloc
        0x2000).cells = some (List.replicate 20 0 ++ [0x2000, 0x1000, 0]) ∧
    ((patchimport (sampleProcess [0x1000, 0x1000, 0] true) 16 kernel32 heapAlloc
        0x2000).andThen (fun p' => patchimport p' 16 kernel32 heapAlloc 0x2000)).cells
      = some (List.replicate 20 0 ++ [0x2000, 0x2000, 0]) := by
  decide

/-- C3.  Exact value after patch: when the descriptor is located, the symbol
has a real address and slot `j` is the first slot of the located table, before
its zero sentinel, that holds the real address, then `patchimport` returns and
slot `j` holds exactly the replacement address. -/
theorem patchimport_slot_holds_replacement (p : Process) (m : Nat) (e n : List Char)
    (r : Nat) (idte : IMAGE_IMPORT_DESCRIPTOR) (j : Nat)
    (hloc : locate p m e = some idte) (hres : Resolves p e n)
    (hj : (slots p (R2VA m idte.FirstThunk))[j]? = some (realAddress p e n))
    (hfirst : ∀ i, i < j →
      (slots p (R2VA m idte.FirstThunk))[i]? ≠ some (realAddress p e n)) :
    ∃ p', patchimport p m e n r = Outcome.returned p' ∧
      p'.mem[R2VA m idte.FirstThunk + j]? = some r := by
  obtain ⟨hc, _, hpre⟩ := first_slot_in_cells _ j _ hj hfirst
  exact ⟨_, patchimport_found_cells p m e n r idte j hloc hres hc hpre,
    mem_swap_getElem? p _ j r _ hc⟩

/-- C3 on the sample image: slot 1 of the table at address 20 receives the
replacement `0xFFFFFFFFFFFFFFFF`, all 64 bits of it. -/
theorem patchimport_slot_holds_replacement_witness :
    ∃ p', patchimport (sampleProcess [0x3000, 0x1000, 0x4000, 0] true) 16 kernel32
        heapAlloc 0xFFFFFFFFFFFFFFFF = Outcome.returned p' ∧
      p'.mem[R2VA 16 sampleDescriptor.FirstThunk + 1]? = some 0xFFFFFFFFFFFFFFFF :=
  patchimport_slot_holds_replacement (sampleProcess [0x3000, 0x1000, 0x4000, 0] true) 16
    kernel32 heapAlloc 0xFFFFFFFFFFFFFFFF sampleDescriptor 1 (by decide) (by decide)
    (by decide) (by decide)

/-- C4.  Restore writes back the real address: when the descriptor is located,
the symbol has a real address and slot `j` is the first slot of the located
table, before its zero sentinel, that holds the replacement address, then
`restoreimport` returns and slot `j` holds exactly the real address. -/
theorem restoreimport_slot_holds_real_address (p : Process) (m : Nat) (e n : List Char)
    (r : Nat) (idte : IMAGE_IMPORT_DESCRIPTOR) (j : Nat)
    (hloc : locate p m e = some idte) (hres : Resolves p e n)
    (hj : (slots p (R2VA m idte.FirstThunk))[j]? = some r)
    (hfirst : ∀ i, i < j → (slots p (R2VA m idte.FirstThunk))[i]? ≠ some r) :
    ∃ p', restoreimport p m e n r = Outcome.returned p' ∧
      p'.mem[R2VA m idte.FirstThunk + j]? = some (realAddress p e n) := by
  obtain ⟨hc, hr, hpre⟩ := first_slot_in_cells _ j _ hj hfirst
  exact ⟨_, restoreimport_found_cells p m e n r idte j hloc hres hr hc hpre,
    mem_swap_getElem? p _ j _ _ hc⟩

/-- C4 on the sample image after a patch: slot 1 holds the replacement
`0x2000` and receives the real address `0x1000`. -/
theorem restoreimport_slot_holds_real_address_witness :
    ∃ p', restoreimport (sampleProcess [0x3000, 0x2000, 0x4000, 0] true) 16 kernel32
        heapAlloc 0x2000 = Outcome.returned p' ∧
      p'.mem[R2VA 16 sampleDescriptor.FirstThunk + 1]?
        = some (realAddress (sampleProcess [0x3000, 0x2000, 0x4000, 0] true) kernel32
            heapAlloc) :=
  restoreimport_slot_holds_real_address (sampleProcess [0x3000, 0x2000, 0x4000, 0] true) 16
    kernel32 heapAlloc 0x2000 sampleDescriptor 1 (by decide) (by decide) (by decide)
    (by decide)

/-- C5.  No-op on absent import: when the importing image has no import
directory, or its (terminated) descriptor array has no descriptor whose
exporting-image name matches the given name case-insensitively, `patchimport`
returns with the process unchanged, whatever export resolution would have
given. -/
theorem patchimport_absent_import (p : Process) (m : Nat) (e n : List Char) (r : Nat)
    (h : ImageDirectoryEntryToDataEx p m = none ∨
      ∃ table, ImageDirectoryEntryToDataEx p m = some table ∧
        (∃ d ∈ table, d.OriginalFirstThunk = 0) ∧
        ∀ d ∈ descriptors table, _stricmp (p.cstring (R2VA m d.Name)) e ≠ 0) :
    patchimport p m e n r = Outcome.returned p := by
  unfold patchimport
  rcases h with h | ⟨table, hdir, hterm, hno⟩
  · rw [h]
  · obtain ⟨idte, hloop, hz⟩ := idteLoop_no_match p m e table hterm hno
    rw [hdir]
    simp only [hloop, hz, if_true]

/-- C5 on the sample process, whose exporter is not loaded: the image at base
48 has no import directory, and the image at base 16 draws nothing from
`user32.dll`. -/
theorem patchimport_absent_import_witness :
    GetModuleHandleA (sampleProcess [0x3000, 0x1000, 0] false) "user32.dll".toList = 0 ∧
    patchimport (sampleProcess [0x3000, 0x1000, 0] false) 48 kernel32 heapAlloc 0x2000
      = Outcome.returned (sampleProcess [0x3000, 0x1000, 0] false) ∧
    patchimport (sampleProcess [0x3000, 0x1000, 0] false) 16 "user32.dll".toList heapAlloc
      0x2000 = Outcome.returned (sampleProcess [0x3000, 0x1000, 0] false) :=
  ⟨by decide,
   patchimport_absent_import _ 48 kernel32 heapAlloc 0x2000 (Or.inl (by decide)),
   patchimport_absent_import _ 16 "user32.dll".toList heapAlloc 0x2000
     (Or.inr ⟨[⟨40, 0, 0, 2, 4⟩, ⟨0, 0, 0, 0, 0⟩], by decide, by decide, by decide⟩)⟩

/-- C6, as amended.  Restore without patch: when the descriptor is located,
export resolution succeeds and no slot of the located (terminated) table holds
the replacement address, `restoreimport` returns with the process unchanged. -/
theorem restoreimport_without_patch (p : Process) (m : Nat) (e n : List Char) (r : Nat)
    (idte : IMAGE_IMPORT_DESCRIPTOR)
    (hloc : locate p m e = some idte) (hres : Resolves p e n)
    (h0 : 0 ∈ p.mem.drop (R2VA m idte.FirstThunk))
    (habs : r ∉ slots p (R2VA m idte.FirstThunk)) :
    restoreimport p m e n r = Outcome.returned p := by
  have h1 : GetModuleHandleA p e ≠ 0 := hres.1
  have h2 : realAddress p e n ≠ 0 := hres.2
  obtain ⟨z, hz, hpre⟩ := absent_in_cells _ r h0 habs
  rw [restoreimport_of_locate p m e n r idte hloc]
  simp only [h1, h2, if_false]
  exact iateLoop_absent p r _ _ _ z hz hpre

/-- C6 (amended) on the sample image, never patched. -/
theorem restoreimport_without_patch_witness :
    restoreimport (sampleProcess [0x3000, 0x1000, 0x4000, 0] true) 16 kernel32 heapAlloc
      0x2000 = Outcome.returned (sampleProcess [0x3000, 0x1000, 0x4000, 0] true) :=
  restoreimport_without_patch _ 16 kernel32 heapAlloc 0x2000 sampleDescriptor (by decide)
    (by decide) (by decide) (by decide)

/-- C6 fails as stated.  In the sample process with the exporter not loaded,
the descriptor is located and no slot of its terminated table holds the
replacement `0x2000`, yet `restoreimport` does not return: the assertion on
the module handle fails. -/
theorem restoreimport_halts_when_exporter_unloaded :
    locate (sampleProcess [0x3000, 0x1000, 0] false) 16 kernel32 = some sampleDescriptor ∧
    0 ∈ (sampleProcess [0x3000, 0x1000, 0] false).mem.drop 20 ∧
    0x2000 ∉ slots (sampleProcess [0x3000, 0x1000, 0] false) 20 ∧
    restoreimport (sampleProcess [0x3000, 0x1000, 0] false) 16 kernel32 heapAlloc 0x2000
      = Outcome.assertionFailed :=
  ⟨by decide, by decide, by decide, rfl⟩

/-- C7.  Fatal exactly on contract violation: `patchimport` and
`restoreimport` each end in an assertion failure if and only if the descriptor
was located and the exporting image is not loaded or does not export the
symbol; in every other situation both return, the image being well formed. -/
theorem halts_iff_contract_violation (p : Process) (m : Nat) (e n : List Char) (r : Nat) :
    (patchimport p m e n r = Outcome.assertionFailed ↔ ContractViolation p m e n) ∧
    (restoreimport p m e n r = Outcome.assertionFailed ↔ ContractViolation p m e n) ∧
    (WellFormed p m → ¬ ContractViolation p m e n →
      (∃ p', patchimport p m e n r = Outcome.returned p') ∧
      (∃ p', restoreimport p m e n r = Outcome.returned p')) := by
  cases hloc : locate p m e with
  | none =>
    have hnv : ¬ ContractViolation p m e n := by
      intro hv
      have := hv.1
      rw [hloc] at this
      cases this
    refine ⟨⟨fun h => ?_, fun h => absurd h hnv⟩, ⟨fun h => ?_, fun h => absurd h hnv⟩,
      fun hwf _ => ⟨?_, ?_⟩⟩
    · rcases patchimport_of_locate_none p m e n r hloc with h' | h' <;>
        (rw [h'] at h; cases h)
    · rcases restoreimport_of_locate_none p m e n r hloc with h' | h' <;>
        (rw [h'] at h; cases h)
    · refine ⟨p, ?_⟩
      unfold locate at hloc
      unfold patchimport
      cases hdir : ImageDirectoryEntryToDataEx p m with
      | none => rfl
      | some table =>
        obtain ⟨idte, hidte⟩ := idteLoop_terminated p m e table (hwf table hdir).1
        simp only [hdir, hidte] at hloc ⊢
        by_cases hd : idte.OriginalFirstThunk = 0
        · simp only [hd, if_true]
        · simp [hd] at hloc
    · refine ⟨p, ?_⟩
      unfold locate at hloc
      unfold restoreimport
      cases hdir : ImageDirectoryEntryToDataEx p m with
      | none => rfl
      | some table =>
        obtain ⟨idte, hidte⟩ := idteLoop_terminated p m e table (hwf table hdir).1
        simp only [hdir, hidte] at hloc ⊢
        by_cases hd : idte.OriginalFirstThunk = 0
        · simp only [hd, if_true]
        · simp [hd] at hloc
  | some idte =>
    have hp := patchimport_of_locate p m e n r idte hloc
    have hq := restoreimport_of_locate p m e n r idte hloc
    have hsome : (locate p m e).isSome = true := by rw [hloc]; rfl
    by_cases h1 : GetModuleHandleA p e = 0
    · have hv : ContractViolation p m e n := ⟨hsome, Or.inl h1⟩
      simp only [h1, if_true] at hp hq
      exact ⟨⟨fun _ => hv, fun _ => hp⟩, ⟨fun _ => hv, fun _ => hq⟩,
        fun _ h => absurd hv h⟩
    · by_cases h2 : realAddress p e n = 0
      · have hv : ContractViolation p m e n := ⟨hsome, Or.inr h2⟩
        simp only [h1, h2, if_true, if_false] at hp hq
        exact ⟨⟨fun _ => hv, fun _ => hp⟩, ⟨fun _ => hv, fun _ => hq⟩,
          fun _ h => absurd hv h⟩
      · have hnv : ¬ ContractViolation p m e n := by
          intro hv
          rcases hv.2 with h | h
          · exact h1 h
          · exact h2 h
        simp only [h1, h2, if_false] at hp hq
        refine ⟨⟨fun h => ?_, fun h => absurd h hnv⟩, ⟨fun h => ?_, fun h => absurd h hnv⟩,
          fun hwf _ => ?_⟩
        · rw [hp] at h
          rcases iateLoop_shape p (realAddress p e n) r
            (p.mem.drop (R2VA m idte.FirstThunk)) (R2VA m idte.FirstThunk)
            with h' | h' | ⟨_, _, _, _, h'⟩ <;> (rw [h'] at h; cases h)
        · rw [hq] at h
          rcases iateLoop_shape p r (realAddress p e n)
            (p.mem.drop (R2VA m idte.FirstThunk)) (R2VA m idte.FirstThunk)
            with h' | h' | ⟨_, _, _, _, h'⟩ <;> (rw [h'] at h; cases h)
        · have h0 := wellFormed_terminated p m e idte hwf hloc
          obtain ⟨p1, hp1⟩ := iateLoop_returns p (realAddress p e n) r _
            (R2VA m idte.FirstThunk) h0
          obtain ⟨p2, hp2⟩ := iateLoop_returns p r (realAddress p e n) _
            (R2VA m idte.FirstThunk) h0
          rw [hp1] at hp
          rw [hp2] at hq
          exact ⟨⟨p1, hp⟩, ⟨p2, hq⟩⟩

/-- C7 on the sample process.  With the exporter not loaded the contract is
violated and `patchimport` halts; with the exporter loaded the image is well
formed, nothing is violated, and both calls return. -/
theorem halts_iff_contract_violation_witness :
    (ContractViolation (sampleProcess [0x3000, 0x1000, 0] false) 16 kernel32 heapAlloc ∧
      patchimport (sampleProcess [0x3000, 0x1000, 0] false) 16 kernel32 heapAlloc 0x2000
        = Outcome.assertionFailed) ∧
    (WellFormed (sampleProcess [0x3000, 0x1000, 0] true) 16 ∧
      ¬ ContractViolation (sampleProcess [0x3000, 0x1000, 0] true) 16 kernel32 heapAlloc ∧
      (∃ p', patchimport (sampleProcess [0x3000, 0x1000, 0] true) 16 kernel32 heapAlloc
        0x2000 = Outcome.returned p') ∧
      (∃ p', restoreimport (sampleProcess [0x3000, 0x1000, 0] true) 16 kernel32 heapAlloc
        0x2000 = Outcome.returned p')) :=
  ⟨⟨by decide,
    (halts_iff_contract_violation (sampleProcess [0x3000, 0x1000, 0] false) 16 kernel32
      heapAlloc 0x2000).1.mpr (by decide)⟩,
   ⟨by decide, by decide,
    (halts_iff_contract_violation (sampleProcess [0x3000, 0x1000, 0] true) 16 kernel32
      heapAlloc 0x2000).2.2 (by decide) (by decide)⟩⟩

/-- C8.  Protection restored: when `patchimport` or `restoreimport` completes,
every page, and so the page that contains the slot, has the protection flags
it had before the call. -/
theorem protection_restored (p : Process) (m : Nat) (e n : List Char) (r : Nat)
    (p' : Process)
    (h : patchimport p m e n r = Outcome.returned p' ∨
      restoreimport p m e n r = Outcome.returned p') :
    p'.prot = p.prot := by
  rcases h with h | h
  · rcases patchimport_returned p m e n r p' h with hp | ⟨_, _, _, _, _, _, hp⟩
    · rw [hp]
    · rw [hp, swap_eq]
  · rcases restoreimport_returned p m e n r p' h with hp | ⟨_, _, _, _, _, _, _, hp⟩
    · rw [hp]
    · rw [hp, swap_eq]

/-- C8 on the sample image, whose pages are read-only (`0x02`): after a patch
that writes slot 1 they are read-only again. -/
theorem protection_restored_witness :
    ∃ p', patchimport (sampleProcess [0x3000, 0x1000, 0x4000, 0] true) 16 kernel32
        heapAlloc 0x2000 = Outcome.returned p' ∧
      p'.mem[21]? = some 0x2000 ∧
      p'.prot = (sampleProcess [0x3000, 0x1000, 0x4000, 0] true).prot :=
  ⟨_, rfl, by decide,
    protection_restored (sampleProcess [0x3000, 0x1000, 0x4000, 0] true) 16 kernel32
      heapAlloc 0x2000 _ (Or.inl rfl)⟩

/-- C9.  One slot per call: when `patchimport` or `restoreimport` returns,
the import directory, the strings, the export data and the size of memory are
as before, and either no cell has changed or there is one slot `j` of the located
descriptor's table such that every cell other than that slot is as before. -/
theorem one_slot_per_call (p : Process) (m : Nat) (e n : List Char) (r : Nat)
    (p' : Process)
    (h : patchimport p m e n r = Outcome.returned p' ∨
      restoreimport p m e n r = Outcome.returned p') :
    p'.directory = p.directory ∧ p'.cstring = p.cstring ∧
    p'.moduleHandle = p.moduleHandle ∧ p'.procAddress = p.procAddress ∧
    p'.mem.length = p.mem.length ∧
    (p'.mem = p.mem ∨
      ∃ idte j, locate p m e = some idte ∧
        j < (slots p (R2VA m idte.FirstThunk)).length ∧
        ∀ k : Nat, k ≠ R2VA m idte.FirstThunk + j → p'.mem[k]? = p.mem[k]?) := by
  have key : p' = p ∨ ∃ idte j v t, locate p m e = some idte ∧ t ≠ 0 ∧
      (p.mem.drop (R2VA m idte.FirstThunk))[j]? = some t ∧
      (∀ i, i < j → ∃ w, (p.mem.drop (R2VA m idte.FirstThunk))[i]? = some w ∧ w ≠ 0 ∧
        w ≠ t) ∧
      p' = swap p (R2VA m idte.FirstThunk + j) v := by
    rcases h with h | h
    · rcases patchimport_returned p m e n r p' h with hp | ⟨idte, j, h1, h2, h3, h4, h5⟩
      · exact Or.inl hp
      · exact Or.inr ⟨idte, j, _, _, h1, h2, h3, h4, h5⟩
    · rcases restoreimport_returned p m e n r p' h with
        hp | ⟨idte, j, h1, _, h2, h3, h4, h5⟩
      · exact Or.inl hp
      · exact Or.inr ⟨idte, j, _, _, h1, h2, h3, h4, h5⟩
  rcases key with hp | ⟨idte, j, v, t, hloc, ht, hj, hpre, hp⟩
  · subst hp
    exact ⟨rfl, rfl, rfl, rfl, rfl, Or.inl rfl⟩
  · rw [swap_eq] at hp
    subst hp
    refine ⟨rfl, rfl, rfl, rfl, by simp, Or.inr ⟨idte, j, hloc, ?_, ?_⟩⟩
    · have hslot := slot_of_cells _ j t hj ht (fun i hi => by
        obtain ⟨w, hw, hw0, _⟩ := hpre i hi
        exact ⟨w, hw, hw0⟩)
      obtain ⟨hlt, _⟩ := List.getElem?_eq_some.mp hslot
      exact hlt
    · intro k hk
      exact List.getElem?_set_ne (Ne.symm hk)

/-- C9 on the sample image: the patch writes slot 1 of the table at address
20, that is cell 21, and nothing else. -/
theorem one_slot_per_call_witness :
    ∃ p', patchimport (sampleProcess [0x3000, 0x1000, 0x4000, 0] true) 16 kernel32
        heapAlloc 0x2000 = Outcome.returned p' ∧
      p'.mem = List.replicate 20 0 ++ [0x3000, 0x2000, 0x4000, 0] ∧
      p'.mem.length = (sampleProcess [0x3000, 0x1000, 0x4000, 0] true).mem.length :=
  ⟨_, rfl, by decide,
    (one_slot_per_call (sampleProcess [0x3000, 0x1000, 0x4000, 0] true) 16 kernel32
      heapAlloc 0x2000 _ (Or.inl rfl)).2.2.2.2.1⟩

/-- C10, as amended.  No resize: when `patchimport` returns after a call with
a non-zero replacement address, or `restoreimport` returns (after a call with
any replacement address), every sentinel-terminated slot array, whatever its
start address, has as many entries as before the call. -/
theorem no_resize (p : Process) (m : Nat) (e n : List Char) (r : Nat) (p' : Process)
    (h : (r ≠ 0 ∧ patchimport p m e n r = Outcome.returned p') ∨
      restoreimport p m e n r = Outcome.returned p') :
    ∀ a, (slots p' a).length = (slots p a).length := by
  intro a
  rcases h with ⟨hr, h⟩ | h
  · rcases patchimport_returned p m e n r p' h with hp | ⟨idte, j, _, h2, hj, _, hp⟩
    · rw [hp]
    · rw [hp, swap_eq]
      rw [List.getElem?_drop] at hj
      exact slots_length_set p.mem _ _ r a hj h2 hr
  · rcases restoreimport_returned p m e n r p' h with hp | ⟨idte, j, _, h2, hr, hj, _, hp⟩
    · rw [hp]
    · rw [hp, swap_eq]
      rw [List.getElem?_drop] at hj
      exact slots_length_set p.mem _ _ _ a hj hr h2

/-- C10 (amended) on the sample image: after a patch with the replacement
`0x2000` the table at address 20 still has three entries. -/
theorem no_resize_witness :
    ∃ p', patchimport (sampleProcess [0x3000, 0x1000, 0x4000, 0] true) 16 kernel32
        heapAlloc 0x2000 = Outcome.returned p' ∧
      (slots p' 20).length = 3 ∧
      (slots p' 20).length = (slots (sampleProcess [0x3000, 0x1000, 0x4000, 0] true) 20).length :=
  ⟨_, rfl, by decide,
    no_resize (sampleProcess [0x3000, 0x1000, 0x4000, 0] true) 16 kernel32 heapAlloc 0x2000 _
      (Or.inl ⟨by decide, rfl⟩) 20⟩

/-- C10 fails as stated.  With the replacement address `0`, `patchimport`
writes a zero into slot 1 of the table `0x3000, 0x1000, 0x4000, 0`: the array
had three entries before the call and has one after it. -/
theorem null_replacement_truncates_table :
    (slots (sampleProcess [0x3000, 0x1000, 0x4000, 0] true) 20).length = 3 ∧
    ∃ p', patchimport (sampleProcess [0x3000, 0x1000, 0x4000, 0] true) 16 kernel32
        heapAlloc 0 = Outcome.returned p' ∧
      p'.mem = List.replicate 20 0 ++ [0x3000, 0, 0x4000, 0] ∧
      (slots p' 20).length = 1 :=
  ⟨by decide, _, rfl, by decide, by decide⟩

/-! ## Calls that find nothing, and the table after a swap -/

theorem patchimport_not_found (p : Process) (m : Nat) (e n : List Char) (r : Nat)
    (idte : IMAGE_IMPORT_DESCRIPTOR)
    (hloc : locate p m e = some idte) (hres : Resolves p e n)
    (h0 : 0 ∈ p.mem.drop (R2VA m idte.FirstThunk))
    (habs : realAddress p e n ∉ slots p (R2VA m idte.FirstThunk)) :
    patchimport p m e n r = Outcome.returned p := by
  have h1 : GetModuleHandleA p e ≠ 0 := hres.1
  have h2 : realAddress p e n ≠ 0 := hres.2
  obtain ⟨z, hz, hpre⟩ := absent_in_cells _ _ h0 habs
  rw [patchimport_of_locate p m e n r idte hloc]
  simp only [h1, h2, if_false]
  exact iateLoop_absent p _ r _ _ z hz hpre

theorem restoreimport_not_found (p : Process) (m : Nat) (e n : List Char) (r : Nat)
    (idte : IMAGE_IMPORT_DESCRIPTOR)
    (hloc : locate p m e = some idte) (hres : Resolves p e n)
    (h0 : 0 ∈ p.mem.drop (R2VA m idte.FirstThunk))
    (habs : r ∉ slots p (R2VA m idte.FirstThunk)) :
    restoreimport p m e n r = Outcome.returned p := by
  have h1 : GetModuleHandleA p e ≠ 0 := hres.1
  have h2 : realAddress p e n ≠ 0 := hres.2
  obtain ⟨z, hz, hpre⟩ := absent_in_cells _ r h0 habs
  rw [restoreimport_of_locate p m e n r idte hloc]
  simp only [h1, h2, if_false]
  exact iateLoop_absent p r _ _ _ z hz hpre

/-- On a well-formed image both calls return at once when no descriptor is
located. -/
theorem unlocated_returns (p : Process) (m : Nat) (e n : List Char) (r : Nat)
    (hwf : WellFormed p m) (hloc : locate p m e = none) :
    patchimport p m e n r = Outcome.returned p ∧
      restoreimport p m e n r = Outcome.returned p := by
  unfold locate at hloc
  unfold patchimport restoreimport
  cases hdir : ImageDirectoryEntryToDataEx p m with
  | none => exact ⟨rfl, rfl⟩
  | some table =>
    obtain ⟨idte, hidte⟩ := idteLoop_terminated p m e table (hwf table hdir).1
    simp only [hdir, hidte] at hloc ⊢
    by_cases hd : idte.OriginalFirstThunk = 0
    · simp only [hd, if_true, and_self]
    · simp [hd] at hloc

theorem takeWhile_nonzero_set :
    ∀ (cs : List Nat) (j t v : Nat),
      (cs.takeWhile (fun v => decide (v ≠ 0)))[j]? = some t → v ≠ 0 →
      (cs.set j v).takeWhile (fun v => decide (v ≠ 0))
        = (cs.takeWhile (fun v => decide (v ≠ 0))).set j v := by
  intro cs
  induction cs with
  | nil => intro j t v h; simp at h
  | cons c rest ih =>
    intro j t v h hv
    by_cases hc : c = 0
    · simp [List.takeWhile_cons, hc] at h
    · simp only [List.takeWhile_cons, hc, ne_eq, not_false_eq_true, decide_True, if_true] at h
      cases j with
      | zero => simp [List.takeWhile_cons, hc, hv]
      | succ j =>
        have hrec := ih j t v (by simpa using h) hv
        simp only [List.set_cons_succ, List.takeWhile_cons, hc, ne_eq, not_false_eq_true,
          decide_True, if_true]
        rw [← hrec]

theorem slots_swap (p : Process) (a j t v : Nat)
    (hj : (slots p a)[j]? = some t) (hv : v ≠ 0) :
    slots (swap p (a + j) v) a = (slots p a).set j v := by
  unfold slots at hj ⊢
  rw [swap_eq]
  dsimp only
  rw [drop_set_add]
  exact takeWhile_nonzero_set _ j t v hj hv

theorem terminated_swap (p : Process) (a j t v : Nat)
    (h0 : 0 ∈ p.mem.drop a) (hj : (slots p a)[j]? = some t) :
    0 ∈ (swap p (a + j) v).mem.drop a := by
  rw [swap_eq]
  dsimp only
  rw [drop_set_add]
  have hz := sentinel_at_length _ h0
  have hlt : j < (slots p a).length := by
    obtain ⟨h, _⟩ := List.getElem?_eq_some.mp hj
    exact h
  apply List.mem_iff_getElem?.mpr
  refine ⟨(slots p a).length, ?_⟩
  rw [List.getElem?_set_ne (by omega)]
  exact hz

theorem exists_first_index (l : List Nat) (t : Nat) (h : t ∈ l) :
    ∃ j : Nat, l[j]? = some t ∧ ∀ i : Nat, i < j → l[i]? ≠ some t := by
  induction l with
  | nil => simp at h
  | cons c rest ih =>
    by_cases hc : c = t
    · exact ⟨0, by simp [hc], fun i hi => absurd hi (Nat.not_lt_zero i)⟩
    · have hmem : t ∈ rest := by
        rcases List.mem_cons.mp h with h | h
        · exact absurd h.symm hc
        · exact h
      obtain ⟨j, hj, hpre⟩ := ih hmem
      refine ⟨j + 1, by simpa using hj, ?_⟩
      intro i hi
      cases i with
      | zero => simpa using hc
      | succ i => simpa using hpre i (by omega)

/-! ## The concrete scenario and the exact round trip -/

/-- C11.  Concrete scenario: the image `m` draws the symbol `n` from the
exporting image `e`, the symbol resolves to `0x1000`, slot `j` of the located
(terminated) table is the one slot that holds `0x1000`, and no slot holds the
replacement `0x2000`.  Then patch, patch, restore, restore, all with the same
arguments, take slot `j` through `0x1000`, `0x2000`, `0x2000` (the second
patch changes nothing), `0x1000`, `0x1000` (the second restore changes
nothing). -/
theorem patch_patch_restore_restore (p : Process) (m : Nat) (e n : List Char)
    (idte : IMAGE_IMPORT_DESCRIPTOR) (j : Nat)
    (hloc : locate p m e = some idte) (hres : Resolves p e n)
    (hreal : realAddress p e n = 0x1000)
    (h0 : 0 ∈ p.mem.drop (R2VA m idte.FirstThunk))
    (hj : (slots p (R2VA m idte.FirstThunk))[j]? = some 0x1000)
    (huniq : ∀ i : Nat, (slots p (R2VA m idte.FirstThunk))[i]? = some 0x1000 → i = j)
    (hno : 0x2000 ∉ slots p (R2VA m idte.FirstThunk)) :
    ∃ p1, p.mem[R2VA m idte.FirstThunk + j]? = some 0x1000 ∧
      patchimport p m e n 0x2000 = Outcome.returned p1 ∧
      p1.mem[R2VA m idte.FirstThunk + j]? = some 0x2000 ∧
      patchimport p1 m e n 0x2000 = Outcome.returned p1 ∧
      restoreimport p1 m e n 0x2000 = Outcome.returned p ∧
      restoreimport p m e n 0x2000 = Outcome.returned p := by
  have hj' : (slots p (R2VA m idte.FirstThunk))[j]? = some (realAddress p e n) := by
    rw [hreal]; exact hj
  have hfirst : ∀ i, i < j →
      (slots p (R2VA m idte.FirstThunk))[i]? ≠ some (realAddress p e n) := by
    intro i hi h
    rw [hreal] at h
    have := huniq i h
    omega
  have hrpre : ∀ i, i < j → (slots p (R2VA m idte.FirstThunk))[i]? ≠ some 0x2000 :=
    fun i _ h => hno (List.mem_iff_getElem?.mpr ⟨i, h⟩)
  obtain ⟨hpatch, hrestore⟩ :=
    patch_then_restore p m e n 0x2000 idte j hloc hres hj' hfirst (by decide) hrpre
  obtain ⟨hc, _, _⟩ := slot_in_cells _ j _ hj
  obtain ⟨hmod, hra⟩ := resolution_swap p (R2VA m idte.FirstThunk + j) 0x2000 e n
  refine ⟨_, ?_, hpatch, mem_swap_getElem? p _ j _ _ hc, ?_, hrestore,
    restoreimport_not_found p m e n 0x2000 idte hloc hres h0 hno⟩
  · rw [← List.getElem?_drop]; exact hc
  · have hres1 : Resolves (swap p (R2VA m idte.FirstThunk + j) 0x2000) e n := by
      have h := hres
      unfold Resolves at h ⊢
      unfold realAddress at hra
      rw [hmod] at hra ⊢
      rw [hra]
      exact h
    apply patchimport_not_found _ m e n 0x2000 idte
      (by rw [locate_swap]; exact hloc) hres1
      (terminated_swap p _ j _ _ h0 hj)
    rw [slots_swap p _ j _ _ hj (by decide), hra, hreal]
    intro hmem
    obtain ⟨i, hi⟩ := List.mem_iff_getElem?.mp hmem
    rw [List.getElem?_set] at hi
    by_cases hji : j = i
    · subst hji
      have hlt : j < (slots p (R2VA m idte.FirstThunk)).length := by
        obtain ⟨h, _⟩ := List.getElem?_eq_some.mp hj
        exact h
      simp [hlt] at hi
    · simp only [hji, if_false] at hi
      exact hji (huniq i hi).symm

/-- The scenario of C11 on the sample image, whose table is `0x1000, 0`. -/
theorem patch_patch_restore_restore_witness :
    ∃ p1, (sampleProcess [0x1000, 0] true).mem[R2VA 16 sampleDescriptor.FirstThunk + 0]?
        = some 0x1000 ∧
      patchimport (sampleProcess [0x1000, 0] true) 16 kernel32 heapAlloc 0x2000
        = Outcome.returned p1 ∧
      p1.mem[R2VA 16 sampleDescriptor.FirstThunk + 0]? = some 0x2000 ∧
      patchimport p1 16 kernel32 heapAlloc 0x2000 = Outcome.returned p1 ∧
      restoreimport p1 16 kernel32 heapAlloc 0x2000
        = Outcome.returned (sampleProcess [0x1000, 0] true) ∧
      restoreimport (sampleProcess [0x1000, 0] true) 16 kernel32 heapAlloc 0x2000
        = Outcome.returned (sampleProcess [0x1000, 0] true) :=
  patch_patch_restore_restore (sampleProcess [0x1000, 0] true) 16 kernel32 heapAlloc
    sampleDescriptor 0 (by decide) (by decide) (by decide) (by decide) (by decide)
    (by
      intro i hi
      have hlen : (slots (sampleProcess [0x1000, 0] true) 20).length = 1 := by decide
      obtain ⟨h, _⟩ := List.getElem?_eq_some.mp hi
      have h' : i < 1 := hlen ▸ h
      omega)
    (by decide)

/-- C16.  Sufficient condition for an exact round trip: on a well-formed image
whose export resolution succeeds, when the replacement address is not zero and
is in no slot of the located descriptor's table, `patchimport` returns and
`restoreimport` with the same arguments then returns the process to exactly
its state before the patch. -/
theorem exact_round_trip (p : Process) (m : Nat) (e n : List Char) (r : Nat)
    (hwf : WellFormed p m) (hres : Resolves p e n) (hr : r ≠ 0)
    (habs : ∀ idte, locate p m e = some idte → r ∉ slots p (R2VA m idte.FirstThunk)) :
    ∃ p', patchimport p m e n r = Outcome.returned p' ∧
      restoreimport p' m e n r = Outcome.returned p := by
  cases hloc : locate p m e with
  | none =>
    obtain ⟨h1, h2⟩ := unlocated_returns p m e n r hwf hloc
    exact ⟨p, h1, h2⟩
  | some idte =>
    have h0 := wellFormed_terminated p m e idte hwf hloc
    have hno := habs idte hloc
    by_cases hmem : realAddress p e n ∈ slots p (R2VA m idte.FirstThunk)
    · obtain ⟨j, hj, hfirst⟩ := exists_first_index _ _ hmem
      obtain ⟨h1, h2⟩ := patch_then_restore p m e n r idte j hloc hres hj hfirst hr
        (fun i _ h => hno (List.mem_iff_getElem?.mpr ⟨i, h⟩))
      exact ⟨_, h1, h2⟩
    · exact ⟨p, patchimport_not_found p m e n r idte hloc hres h0 hmem,
        restoreimport_not_found p m e n r idte hloc hres h0 hno⟩

/-- The exact round trip of C16 on the sample image with the table
`0x3000, 0x1000, 0x4000, 0` and the replacement `0x2000`. -/
theorem exact_round_trip_witness :
    ∃ p', patchimport (sampleProcess [0x3000, 0x1000, 0x4000, 0] true) 16 kernel32
        heapAlloc 0x2000 = Outcome.returned p' ∧
      restoreimport p' 16 kernel32 heapAlloc 0x2000
        = Outcome.returned (sampleProcess [0x3000, 0x1000, 0x4000, 0] true) :=
  exact_round_trip (sampleProcess [0x3000, 0x1000, 0x4000, 0] true) 16 kernel32 heapAlloc
    0x2000 (by decide) (by decide) (by decide) (by
      intro idte hloc
      have h : locate (sampleProcess [0x3000, 0x1000, 0x4000, 0] true) 16 kernel32
          = some sampleDescriptor := by decide
      rw [h] at hloc
      have hd : idte = sampleDescriptor := (Option.some.inj hloc).symm
      subst hd
      decide)

/-! ## The comparison of names -/

theorem char_eq_of_toNat_eq (a b : Char) (h : a.toNat = b.toNat) : a = b := by
  rw [← Char.ofNat_toNat a, ← Char.ofNat_toNat b, h]

theorem tolower_toNat_ne_zero (c : Char) (h : c ≠ NUL) : (tolower c).toNat ≠ 0 := by
  unfold tolower
  split
  · rename_i hc
    have h1 : 65 ≤ c.toNat := by
      have := Char.le_def.mp hc.1
      exact this
    have h2 : c.toNat ≤ 90 := by
      have := Char.le_def.mp hc.2
      exact this
    have hc' := Char.ofNat_toNat c
    generalize c.toNat = k at h1 h2 hc'
    subst hc'
    interval_cases k <;> decide
  · intro h0
    exact h (char_eq_of_toNat_eq c NUL h0)

/-- The model of `_stricmp` gives zero exactly for names that are equal
under ASCII case-insensitive comparison. -/
theorem stricmp_eq_zero_iff :
    ∀ (a b : List Char), NUL ∉ a → NUL ∉ b →
      (_stricmp a b = 0 ↔ EqIgnoreAsciiCase a b) := by
  intro a
  induction a with
  | nil =>
    intro b _ hb
    cases b with
    | nil => simp [_stricmp, EqIgnoreAsciiCase]
    | cons y ys =>
      have hy : y ≠ NUL := fun h => hb (h ▸ List.mem_cons_self _ _)
      have := tolower_toNat_ne_zero y hy
      simp only [_stricmp, EqIgnoreAsciiCase, List.map_nil, List.map_cons]
      constructor
      · intro h; omega
      · intro h; cases h
  | cons x xs ih =>
    intro b ha hb
    have hx : x ≠ NUL := fun h => ha (h ▸ List.mem_cons_self _ _)
    have hxs : NUL ∉ xs := fun h => ha (List.mem_cons_of_mem _ h)
    cases b with
    | nil =>
      have := tolower_toNat_ne_zero x hx
      simp only [_stricmp, EqIgnoreAsciiCase, List.map_nil, List.map_cons]
      constructor
      · intro h; omega
      · intro h; cases h
    | cons y ys =>
      have hys : NUL ∉ ys := fun h => hb (List.mem_cons_of_mem _ h)
      simp only [_stricmp, EqIgnoreAsciiCase, List.map_cons, List.cons.injEq]
      by_cases hxy : tolower x = tolower y
      · simp only [hxy, if_true, true_and]
        exact ih ys hxs hys
      · simp only [hxy, if_false, false_and, iff_false]
        intro h
        apply hxy
        apply char_eq_of_toNat_eq
        omega

theorem idteLoop_find (p : Process) (m : Nat) (e : List Char) (he : NUL ∉ e) :
    ∀ table, (∃ d ∈ table, d.OriginalFirstThunk = 0) →
      (∀ d ∈ descriptors table, NUL ∉ p.cstring (R2VA m d.Name)) →
      (match idteLoop p m e table with
        | none => none
        | some idte => if idte.OriginalFirstThunk = 0 then none else some idte)
      = (descriptors table).find?
          (fun d => decide (EqIgnoreAsciiCase (p.cstring (R2VA m d.Name)) e)) := by
  intro table
  induction table with
  | nil => intro h; simp at h
  | cons d rest ih =>
    intro hterm hs
    by_cases hd : d.OriginalFirstThunk = 0
    · simp [idteLoop, descriptors, List.takeWhile_cons, hd]
    · have hdesc : descriptors (d :: rest) = d :: descriptors rest := by
        simp only [descriptors, List.takeWhile_cons, hd, ne_eq, not_false_eq_true,
          decide_True, if_true]
      have hiff := stricmp_eq_zero_iff (p.cstring (R2VA m d.Name)) e
        (hs d (by rw [hdesc]; exact List.mem_cons_self _ _)) he
      rw [hdesc]
      by_cases hmatch : _stricmp (p.cstring (R2VA m d.Name)) e = 0
      · have hE := hiff.mp hmatch
        simp only [idteLoop, hd, hmatch, ne_eq, not_false_eq_true, if_true, if_false,
          List.find?_cons, decide_eq_true hE]
      · have hE : ¬ EqIgnoreAsciiCase (p.cstring (R2VA m d.Name)) e :=
          fun h => hmatch (hiff.mpr h)
        obtain ⟨x, hx, hx0⟩ := hterm
        have hrest : ∃ d ∈ rest, d.OriginalFirstThunk = 0 := by
          rcases List.mem_cons.mp hx with hxd | hxr
          · exact absurd (hxd ▸ hx0) hd
          · exact ⟨x, hxr, hx0⟩
        have hrec := ih hrest (fun d' hd' =>
          hs d' (by rw [hdesc]; exact List.mem_cons_of_mem _ hd'))
        simp only [idteLoop, hd, hmatch, ne_eq, not_false_eq_true, if_true, if_false,
          List.find?_cons, decide_eq_false hE]
        exact hrec

/-- C15, as amended.  Descriptor locator: on a descriptor array with a
terminating descriptor, the locator selects the first descriptor, among the
descriptors that precede the first descriptor whose `OriginalFirstThunk` is
zero, whose exporting-image name equals the given name under ASCII
case-insensitive comparison, and yields NotFound exactly when none of them
matches; without an import directory it yields NotFound. -/
theorem locate_first_match (p : Process) (m : Nat) (e : List Char) (he : NUL ∉ e)
    (hterm : ∀ table ∈ ImageDirectoryEntryToDataEx p m,
      ∃ d ∈ table, d.OriginalFirstThunk = 0)
    (hs : ∀ table ∈ ImageDirectoryEntryToDataEx p m,
      ∀ d ∈ descriptors table, NUL ∉ p.cstring (R2VA m d.Name)) :
    locate p m e = (ImageDirectoryEntryToDataEx p m).bind (fun table =>
      (descriptors table).find?
        (fun d => decide (EqIgnoreAsciiCase (p.cstring (R2VA m d.Name)) e))) := by
  unfold locate
  cases hdir : ImageDirectoryEntryToDataEx p m with
  | none => rfl
  | some table =>
    simp only [Option.some_bind]
    exact idteLoop_find p m e he table (hterm table (by rw [hdir]; rfl))
      (hs table (by rw [hdir]; rfl))

/-- C15 (amended) on the sample image, asked for `kernel32.dll`: the
descriptor named `KERNEL32.dll` is selected. -/
theorem locate_first_match_witness :
    locate (sampleProcess [0x1000, 0] true) 16 kernel32 = some sampleDescriptor ∧
    locate (sampleProcess [0x1000, 0] true) 16 kernel32
      = (ImageDirectoryEntryToDataEx (sampleProcess [0x1000, 0] true) 16).bind
          (fun table => (descriptors table).find? (fun d => decide (EqIgnoreAsciiCase
            ((sampleProcess [0x1000, 0] true).cstring (R2VA 16 d.Name)) kernel32))) :=
  ⟨by decide,
   locate_first_match (sampleProcess [0x1000, 0] true) 16 kernel32 (by decide)
     (by decide) (by decide)⟩

/-- C15 fails as stated.  In the image whose first descriptor has a zero
`OriginalFirstThunk` but is not all-zero, the descriptor named `KERNEL32.dll`
precedes the all-zero sentinel and matches `kernel32.dll`, yet the locator
yields NotFound: its loop stops at the first descriptor. -/
theorem locator_stops_before_all_zero_sentinel :
    ImageDirectoryEntryToDataEx unboundFirstProcess 16
      = some [⟨0, 0, 0, 30, 8⟩, ⟨40, 0, 0, 2, 4⟩, ⟨0, 0, 0, 0, 0⟩] ∧
    descriptorsBeforeAllZero [⟨0, 0, 0, 30, 8⟩, ⟨40, 0, 0, 2, 4⟩, ⟨0, 0, 0, 0, 0⟩]
      = [⟨0, 0, 0, 30, 8⟩, ⟨40, 0, 0, 2, 4⟩] ∧
    (descriptorsBeforeAllZero [⟨0, 0, 0, 30, 8⟩, ⟨40, 0, 0, 2, 4⟩, ⟨0, 0, 0, 0, 0⟩]).find?
      (fun d => decide (EqIgnoreAsciiCase
        (unboundFirstProcess.cstring (R2VA 16 d.Name)) kernel32))
      = some ⟨40, 0, 0, 2, 4⟩ ∧
    locate unboundFirstProcess 16 kernel32 = none ∧
    patchimport unboundFirstProcess 16 kernel32 heapAlloc 0x2000
      = Outcome.returned unboundFirstProcess := by
  refine ⟨rfl, by decide, by decide, by decide, rfl⟩

/-! ## `booltostr` and `strapp` -/

/-- C14, at the failing input.  `booltostr` tests `b == TRUE`: for the `BOOL`
value 2, which is true (non-zero), it returns the string `false`. -/
theorem booltostr_of_two : (2 : Int) ≠ 0 ∧ booltostr 2 = "false".toList := by
  decide

/-- What `booltostr` does: `true` exactly for the value `TRUE`, that is 1. -/
theorem booltostr_eq_true_iff (b : Int) : booltostr b = "true".toList ↔ b = 1 := by
  unfold booltostr TRUE
  by_cases h : b = 1
  · simp [h]
  · simp only [h, if_false, iff_false]
    decide

/-- C12, at the failing input.  With the destination `abc` and the empty
source, `_tcsncpy` copies three characters and writes no NUL, so the end of
the string that `_tcsncat` looks for depends on what the allocator left in the
fourth character: when that is not NUL (here `0xCD`), the scan leaves the new
buffer. -/
theorem strapp_empty_source :
    strapp (fun _ => Char.ofNat 0xCD) ("abc".toList ++ [NUL]) [NUL] = none ∧
    _tcsncpy (newTCHAR (fun _ => Char.ofNat 0xCD) 4) ("abc".toList ++ [NUL]) 3
      = some ("abc".toList ++ [Char.ofNat 0xCD]) := by
  decide

theorem cstr_terminated (d rest : List Char) (h : NUL ∉ d) :
    cstr (d ++ NUL :: rest) = d := by
  unfold cstr
  induction d with
  | nil => simp [List.takeWhile_cons]
  | cons c t ih =>
    have hc : c ≠ NUL := fun hc => h (hc ▸ List.mem_cons_self _ _)
    have ht : NUL ∉ t := fun ht => h (List.mem_cons_of_mem _ ht)
    simp only [List.cons_append, List.takeWhile_cons, hc, ne_eq, not_false_eq_true,
      decide_True, if_true, ih ht]

/-- With a source that is not empty `strapp` does concatenate, whatever the
allocator left in the new buffer: the slip shows with the empty source only. -/
theorem strapp_nonempty_source (junk : Nat → Char) (d s : List Char)
    (hd : NUL ∉ d) (hs : NUL ∉ s) (hne : s ≠ []) :
    strapp junk (d ++ [NUL]) (s ++ [NUL]) = some (d ++ s ++ [NUL]) := by
  have hcd : cstr (d ++ [NUL]) = d := cstr_terminated d [] hd
  have hcs : cstr (s ++ [NUL]) = s := cstr_terminated s [] hs
  have hld : _tcslen (d ++ [NUL]) = some d.length := by simp [_tcslen, hcd]
  have hls : _tcslen (s ++ [NUL]) = some s.length := by simp [_tcslen, hcs]
  have hfresh : (newTCHAR junk (d.length + s.length + 1)).length
      = d.length + s.length + 1 := by simp [newTCHAR]
  obtain ⟨k, hk⟩ : ∃ k, s.length = k + 1 := by
    cases s with
    | nil => exact absurd rfl hne
    | cons c t => exact ⟨t.length, rfl⟩
  have hcopy : _tcsncpy (newTCHAR junk (d.length + s.length + 1)) (d ++ [NUL])
      (d.length + s.length)
      = some (d ++ NUL :: (List.replicate k NUL
          ++ (newTCHAR junk (d.length + s.length + 1)).drop (d.length + s.length))) := by
    unfold _tcsncpy
    rw [hcd]
    have hcond : (d.length + s.length ≤ d.length ∨ NUL ∈ d ++ [NUL]) ∧
        d.length + s.length ≤ (newTCHAR junk (d.length + s.length + 1)).length := by
      refine ⟨Or.inr (by simp), by omega⟩
    rw [if_pos hcond]
    have h1 : d.take (d.length + s.length) = d := List.take_of_length_le (by omega)
    have h2 : d.length + s.length - d.length = k + 1 := by omega
    rw [h1, h2, List.replicate_succ]
    simp
  have hdrop : ((newTCHAR junk (d.length + s.length + 1)).drop (d.length + s.length)).length
      = 1 := by
    rw [List.length_drop, hfresh]; omega
  unfold strapp
  simp only [hld, hls, hcopy]
  unfold _tcsncat
  rw [cstr_terminated d _ hd, hcs]
  have hmin : min (d.length + s.length) s.length = s.length := by omega
  have hcond : NUL ∈ d ++ NUL :: (List.replicate k NUL
        ++ (newTCHAR junk (d.length + s.length + 1)).drop (d.length + s.length)) ∧
      (d.length + s.length ≤ s.length ∨ NUL ∈ s ++ [NUL]) ∧
      d.length + min (d.length + s.length) s.length + 1
        ≤ (d ++ NUL :: (List.replicate k NUL
          ++ (newTCHAR junk (d.length + s.length + 1)).drop (d.length + s.length))).length := by
    refine ⟨by simp, Or.inr (by simp), ?_⟩
    simp only [List.length_append, List.length_cons, List.length_replicate, hdrop, hmin]
    omega
  rw [if_pos hcond, hmin]
  have h3 : s.take (d.length + s.length) = s := List.take_of_length_le (by omega)
  rw [h3]
  have h4 : (d ++ NUL :: (List.replicate k NUL
      ++ (newTCHAR junk (d.length + s.length + 1)).drop (d.length + s.length))).drop
        (d.length + s.length + 1) = [] := by
    apply List.drop_of_length_le
    simp only [List.length_append, List.length_cons, List.length_replicate, hdrop]
    omega
  rw [h4]
  simp

/-! ## `strtobool` -/

theorem dropWhile_of_prefix (p : Char → Bool) :
    ∀ (ws rest : List Char), (∀ c ∈ ws, p c = true) → (∀ c ∈ rest.head?, p c = false) →
      (ws ++ rest).dropWhile p = rest := by
  intro ws
  induction ws with
  | nil =>
    intro rest _ h
    cases rest with
    | nil => rfl
    | cons c t => simp [List.dropWhile_cons, h c (by simp)]
  | cons w ws ih =>
    intro rest hws h
    have hw := hws w (List.mem_cons_self _ _)
    simp only [List.cons_append, List.dropWhile_cons, hw, if_true]
    exact ih rest (fun c hc => hws c (List.mem_cons_of_mem _ hc)) h

theorem takeWhile_of_prefix (p : Char → Bool) :
    ∀ (zs rest : List Char), (∀ c ∈ zs, p c = true) → (∀ c ∈ rest.head?, p c = false) →
      (zs ++ rest).takeWhile p = zs := by
  intro zs
  induction zs with
  | nil =>
    intro rest _ h
    cases rest with
    | nil => rfl
    | cons c t => simp [List.takeWhile_cons, h c (by simp)]
  | cons z zs ih =>
    intro rest hzs h
    have hz := hzs z (List.mem_cons_self _ _)
    simp only [List.cons_append, List.takeWhile_cons, hz, if_true]
    rw [ih rest (fun c hc => hzs c (List.mem_cons_of_mem _ hc)) h]

theorem dropWhile_head_not (p : Char → Bool) (l : List Char) (c : Char) (t : List Char)
    (h : l.dropWhile p = c :: t) : p c = false := by
  have := List.head?_dropWhile_not p l
  rw [h] at this
  exact this

theorem digits_fold_ge (D : List Char) :
    ∀ acc : Nat, acc ≤ D.foldl (fun acc c => acc * 10 + (c.toNat - 48)) acc := by
  induction D with
  | nil => intro acc; exact Nat.le_refl _
  | cons c t ih =>
    intro acc
    have := ih (acc * 10 + (c.toNat - 48))
    simp only [List.foldl_cons]
    omega

theorem digitsValue_zeros (zs : List Char) (h : ∀ c ∈ zs, c = '0') : digitsValue zs = 0 := by
  unfold digitsValue
  induction zs with
  | nil => rfl
  | cons c t ih =>
    have hc := h c (List.mem_cons_self _ _)
    subst hc
    simp only [List.foldl_cons]
    exact ih (fun c hc => h c (List.mem_cons_of_mem _ hc))

theorem digitsValue_zeros_one (zs : List Char) (h : ∀ c ∈ zs, c = '0') :
    digitsValue (zs ++ ['1']) = 1 := by
  have h0 := digitsValue_zeros zs h
  unfold digitsValue at h0 ⊢
  rw [List.foldl_append, h0]
  rfl

theorem digitsValue_eq_one (D : List Char) (hD : ∀ c ∈ D, isdigit c = true)
    (h : digitsValue D = 1) : ∃ zs, D = zs ++ ['1'] ∧ ∀ c ∈ zs, c = '0' := by
  induction D with
  | nil => exact absurd h (by decide)
  | cons c t ih =>
    have hc := hD c (List.mem_cons_self _ _)
    have hc' : 48 ≤ c.toNat ∧ c.toNat ≤ 57 := by
      simpa [isdigit] using hc
    unfold digitsValue at h ih
    simp only [List.foldl_cons, Nat.zero_mul, Nat.zero_add] at h
    by_cases hz : c.toNat = 48
    · have hc0 : c = '0' := char_eq_of_toNat_eq c '0' hz
      rw [hz] at h
      obtain ⟨zs, hzs, hall⟩ := ih (fun c hc => hD c (List.mem_cons_of_mem _ hc)) h
      refine ⟨c :: zs, by rw [hzs]; rfl, ?_⟩
      intro x hx
      rcases List.mem_cons.mp hx with hx | hx
      · rw [hx]; exact hc0
      · exact hall x hx
    · cases t with
      | nil =>
        simp only [List.foldl_nil] at h
        have hc1 : c = '1' := char_eq_of_toNat_eq c '1' (by
          have : ('1' : Char).toNat = 49 := by decide
          omega)
        exact ⟨[], by rw [hc1]; rfl, fun x hx => absurd hx (List.not_mem_nil x)⟩
      | cons c2 t2 =>
        simp only [List.foldl_cons] at h
        have := digits_fold_ge t2 ((c.toNat - 48) * 10 + (c2.toNat - 48))
        omega

/-- The strings that the model of `_tcstol` converts to 1. -/
theorem tcstol_eq_one_iff (s : List Char) : _tcstol s = 1 ↔ StartsWithOne s := by
  constructor
  · intro h
    unfold _tcstol at h
    have hsplit := List.takeWhile_append_dropWhile isspace s
    have hws : ∀ c ∈ s.takeWhile isspace, isspace c = true :=
      fun c hc => List.mem_takeWhile_imp hc
    cases hdrop : s.dropWhile isspace with
    | nil =>
      rw [hdrop] at h
      exact absurd h (by decide)
    | cons c t =>
      rw [hdrop] at h hsplit
      simp only at h
      by_cases hminus : c = '-'
      · simp only [hminus, if_true] at h
        unfold LONG_MIN at h
        omega
      · simp only [hminus, if_false] at h
        by_cases hplus : c = '+'
        · simp only [hplus, if_true] at h
          unfold LONG_MAX at h
          have hv : digitsValue (t.takeWhile isdigit) = 1 := by omega
          obtain ⟨zs, hzs, hall⟩ := digitsValue_eq_one _
            (fun c hc => List.mem_takeWhile_imp hc) hv
          have ht := List.takeWhile_append_dropWhile isdigit t
          refine ⟨s.takeWhile isspace, ['+'], zs, t.dropWhile isdigit, ?_, hws,
            Or.inr rfl, hall, ?_⟩
          · have ht' : t = zs ++ '1' :: t.dropWhile isdigit := by
              rw [hzs] at ht
              simpa using ht.symm
            refine hsplit.symm.trans ?_
            conv_lhs => rw [hplus, ht']
            simp
          · intro x hx
            have := List.head?_dropWhile_not isdigit t
            rw [Option.mem_def] at hx
            rw [hx] at this
            exact this
        · simp only [hplus, if_false] at h
          unfold LONG_MAX at h
          have hv : digitsValue ((c :: t).takeWhile isdigit) = 1 := by omega
          obtain ⟨zs, hzs, hall⟩ := digitsValue_eq_one _
            (fun c hc => List.mem_takeWhile_imp hc) hv
          have ht := List.takeWhile_append_dropWhile isdigit (c :: t)
          refine ⟨s.takeWhile isspace, [], zs, (c :: t).dropWhile isdigit, ?_, hws,
            Or.inl rfl, hall, ?_⟩
          · have ht' : c :: t = zs ++ '1' :: (c :: t).dropWhile isdigit := by
              rw [hzs] at ht
              simpa using ht.symm
            refine hsplit.symm.trans ?_
            conv_lhs => rw [ht']
            simp
          · intro x hx
            have := List.head?_dropWhile_not isdigit (c :: t)
            rw [Option.mem_def] at hx
            rw [hx] at this
            exact this
  · rintro ⟨ws, sign, zs, rest, hs, hws, hsign, hzs, hrest⟩
    have hdig : ∀ c ∈ zs ++ ['1'], isdigit c = true := by
      intro c hc
      rcases List.mem_append.mp hc with hc | hc
      · rw [hzs c hc]; decide
      · rw [List.mem_singleton.mp hc]; decide
    have htake : (zs ++ '1' :: rest).takeWhile isdigit = zs ++ ['1'] := by
      have := takeWhile_of_prefix isdigit (zs ++ ['1']) rest hdig hrest
      simpa using this
    have hval : digitsValue ((zs ++ '1' :: rest).takeWhile isdigit) = 1 := by
      rw [htake]; exact digitsValue_zeros_one zs hzs
    unfold _tcstol
    rcases hsign with hsign | hsign
    · subst hsign
      have hdrop : s.dropWhile isspace = zs ++ '1' :: rest := by
        rw [hs]
        have := dropWhile_of_prefix isspace ws (zs ++ '1' :: rest) hws (by
          intro c hc
          cases zs with
          | nil =>
            simp at hc
            rw [← hc]; decide
          | cons z zt =>
            simp at hc
            rw [← hc, hzs z (List.mem_cons_self _ _)]; decide)
        simpa using this
      rw [hdrop]
      cases hzs' : zs with
      | nil =>
        subst hzs'
        simp only [List.nil_append] at hval ⊢
        have h1 : ¬ ('1' : Char) = '-' := by decide
        have h2 : ¬ ('1' : Char) = '+' := by decide
        simp only [h1, h2, if_false, hval]
        decide
      | cons z zt =>
        subst hzs'
        have hz : z = '0' := hzs z (List.mem_cons_self _ _)
        simp only [List.cons_append] at hval ⊢
        have h1 : ¬ z = '-' := by rw [hz]; decide
        have h2 : ¬ z = '+' := by rw [hz]; decide
        simp only [h1, h2, if_false, hval]
        decide
    · subst hsign
      have hdrop : s.dropWhile isspace = '+' :: (zs ++ '1' :: rest) := by
        rw [hs]
        have := dropWhile_of_prefix isspace ws ('+' :: (zs ++ '1' :: rest)) hws (by
          intro c hc
          simp at hc
          rw [← hc]; decide)
        simpa using this
      rw [hdrop]
      have h1 : ¬ ('+' : Char) = '-' := by decide
      simp only [h1, if_false, if_true, hval]
      decide

/-- C13, as amended.  `strtobool` returns true exactly for the strings that
equal `true`, `yes` or `on` ignoring ASCII case, and for the strings that
`_tcstol` converts to 1: white space, an optional plus sign, zeros and a
single `1`, followed by the end of the string or by anything that does not
begin with a digit; it returns false for every other string. -/
theorem strtobool_eq_true_iff (s : List Char) (hs : NUL ∉ s) :
    strtobool s = true ↔
      (EqIgnoreAsciiCase s "true".toList ∨ EqIgnoreAsciiCase s "yes".toList ∨
        EqIgnoreAsciiCase s "on".toList ∨ StartsWithOne s) := by
  have h1 := stricmp_eq_zero_iff s "true".toList hs (by decide)
  have h2 := stricmp_eq_zero_iff s "yes".toList hs (by decide)
  have h3 := stricmp_eq_zero_iff s "on".toList hs (by decide)
  have h4 := tcstol_eq_one_iff s
  unfold strtobool _tcsicmp
  rw [← h1, ← h2, ← h3, ← h4]
  by_cases h : _stricmp s "true".toList = 0 ∨ _stricmp s "yes".toList = 0 ∨
      _stricmp s "on".toList = 0 ∨ _tcstol s = 1
  · simp only [h, if_true]
  · simp only [h, if_false, iff_false]
    exact Bool.false_ne_true

/-- C13 (amended) on the string `1x`, which `strtobool` takes for true. -/
theorem strtobool_eq_true_iff_witness :
    strtobool "1x".toList = true ∧ StartsWithOne "1x".toList :=
  ⟨by decide,
   ((strtobool_eq_true_iff "1x".toList (by decide)).mp (by decide)).resolve_left
     (by decide) |>.resolve_left (by decide) |>.resolve_left (by decide)⟩

/-- C13 fails as stated.  The string `1x` is none of `true`, `yes`, `on` and
is not the decimal integer 1 (it is no decimal integer), yet `strtobool`
returns true for it: `_tcstol` converts the leading `1` and the rest is never
looked at. -/
theorem strtobool_accepts_trailing_text :
    ¬ RecognisedTrue "1x".toList ∧ strtobool "1x".toList = true := by
  decide

/-! ## `dumpmemory`: the buffers along one line -/

theorem hexDigit_ne_nul (n : Nat) (h : n < 16) : hexDigit n ≠ NUL := by
  interval_cases n <;> decide

theorem hexHigh_ne_nul (address : Nat → Nat) (size byte : Nat) :
    hexHigh address size byte ≠ NUL := by
  unfold hexHigh
  split
  · exact hexDigit_ne_nul _ (by omega)
  · decide

theorem hexLow_ne_nul (address : Nat → Nat) (size byte : Nat) :
    hexLow address size byte ≠ NUL := by
  unfold hexLow
  split
  · exact hexDigit_ne_nul _ (by omega)
  · decide

theorem ascOf_ne_nul (address : Nat → Nat) (size byte : Nat) :
    ascOf address size byte ≠ NUL := by
  unfold ascOf
  split
  · split
    · rename_i _ h
      have h1 : 32 ≤ address byte % 256 ∧ address byte % 256 ≤ 126 := by
        simpa [isprint] using h.1
      generalize address byte % 256 = d at h1
      obtain ⟨h2, h3⟩ := h1
      interval_cases d <;> decide
    · decide
  · decide

theorem writeAt_prefix (P tail cs : List Char) (i : Nat) (hi : i = P.length) :
    writeAt (P ++ tail) i cs = P ++ (cs ++ tail.drop cs.length) := by
  subst hi
  unfold writeAt
  rw [List.take_left', List.drop_append]
  · simp
  · rfl

theorem set_prefix (P : List Char) (x : Char) (t : List Char) (c : Char) (i : Nat)
    (hi : i = P.length) : (P ++ x :: t).set i c = P ++ c :: t := by
  subst hi
  induction P with
  | nil => rfl
  | cons p P ih => simp [ih]

theorem strncpyAt_eq (buf : List Char) (off : Nat) (c0 c1 c2 : Char)
    (h0 : c0 ≠ NUL) (h1 : c1 ≠ NUL) (h2 : c2 ≠ NUL) (hlen : off + 4 ≤ buf.length) :
    strncpyAt buf off [c0, c1, c2, NUL] 4 = some (writeAt buf off [c0, c1, c2, NUL]) := by
  have hc : cstr [c0, c1, c2, NUL] = [c0, c1, c2] :=
    cstr_terminated [c0, c1, c2] [] (by
      intro h
      simp only [List.mem_cons, List.mem_singleton, List.not_mem_nil, or_false] at h
      rcases h with h | h | h
      · exact h0 h.symm
      · exact h1 h.symm
      · exact h2 h.symm)
  unfold strncpyAt _tcsncpy writeAt
  rw [hc]
  have hoff : off ≤ buf.length := by omega
  have hcond : (4 ≤ [c0, c1, c2].length ∨ NUL ∈ [c0, c1, c2, NUL]) ∧
      4 ≤ (buf.drop off).length := by
    refine ⟨Or.inr (by simp), ?_⟩
    rw [List.length_drop]; omega
  rw [if_pos hoff, if_pos hcond]
  simp [List.drop_drop, Nat.add_comm]

theorem storeAt_eq (buf : List Char) (i : Nat) (c : Char) (h : i < buf.length) :
    storeAt buf i c = some (buf.set i c) := by
  unfold storeAt
  rw [if_pos h]

theorem hexPrefix_length (h0 h1 : Nat → Char) (b : Nat) (hb : b < 16) :
    (hexPrefix h0 h1 b).length = 3 * (b + b / 4) := by
  interval_cases b <;> rfl

theorem ascPrefix_length (a : Nat → Char) (b : Nat) (hb : b < 16) :
    (ascPrefix a b).length = b + b / 8 := by
  interval_cases b <;> rfl

theorem hexPrefix_succ (h0 h1 : Nat → Char) (b : Nat) :
    hexPrefix h0 h1 (b + 1) = hexPrefix h0 h1 b ++
      ([h0 b, h1 b, ' '] ++ (if b % 4 = 3 ∧ b ≠ 15 then [' ', ' ', ' '] else [])) := by
  unfold hexPrefix
  rw [List.range_succ, List.flatMap_append]
  simp

theorem ascPrefix_succ (a : Nat → Char) (b : Nat) :
    ascPrefix a (b + 1) = ascPrefix a b ++ (a b :: (if b = 7 then [' '] else [])) := by
  unfold ascPrefix
  rw [List.range_succ, List.flatMap_append]
  simp

theorem lineStep_hexdump (M : Nat) (h0 h1 a : Nat → Char) (rd : Nat → List Nat)
    (st : DumpState) (b : Nat) :
    (lineStep M h0 h1 a rd st b).hexdump =
      if (b + 1) % 16 = 0 then writeAt st.hexdump (3 * (b + b / 4)) [h0 b, h1 b, ' ', NUL]
      else if (b + 1) % 4 = 0 then
        writeAt (writeAt st.hexdump (3 * (b + b / 4)) [h0 b, h1 b, ' ', NUL])
          (3 * (b + b / 4) + 3) threeSpaces
      else writeAt st.hexdump (3 * (b + b / 4)) [h0 b, h1 b, ' ', NUL] := by
  unfold lineStep
  split <;> rfl

theorem lineStep_ascdump (M : Nat) (h0 h1 a : Nat → Char) (rd : Nat → List Nat)
    (st : DumpState) (b : Nat) :
    (lineStep M h0 h1 a rd st b).ascdump =
      if (b + 1) % 16 = 0 then st.ascdump.set (b + b / 8) (a b)
      else if (b + 1) % 8 = 0 then (st.ascdump.set (b + b / 8) (a b)).set (b + b / 8 + 1) ' '
      else st.ascdump.set (b + b / 8) (a b) := by
  unfold lineStep
  split <;> rfl

theorem lineStep_bytesdone (M : Nat) (h0 h1 a : Nat → Char) (rd : Nat → List Nat)
    (st : DumpState) (b : Nat) :
    (lineStep M h0 h1 a rd st b).bytesdone = st.bytesdone + 1 := by
  unfold lineStep
  split <;> rfl

theorem lineStep_reads (M : Nat) (h0 h1 a : Nat → Char) (rd : Nat → List Nat)
    (st : DumpState) (b : Nat) :
    (lineStep M h0 h1 a rd st b).reads = st.reads ++ rd b := by
  unfold lineStep
  split <;> rfl

theorem lineStep_lines (M : Nat) (h0 h1 a : Nat → Char) (rd : Nat → List Nat)
    (st : DumpState) (b : Nat) :
    (lineStep M h0 h1 a rd st b).lines =
      if (b + 1) % 16 = 0 then
        st.lines ++ reported M (lineStep M h0 h1 a rd st b).hexdump
          (lineStep M h0 h1 a rd st b).ascdump
      else st.lines := by
  unfold lineStep
  split <;> rfl

theorem lineStep_hex_inv (M : Nat) (h0 h1 a : Nat → Char) (rd : Nat → List Nat)
    (st : DumpState) (b : Nat) (hb : b < 16) (tail : List Char)
    (hh : st.hexdump = hexPrefix h0 h1 b ++ tail)
    (hlen : (hexPrefix h0 h1 b).length + tail.length = 58) :
    ∃ tail', (lineStep M h0 h1 a rd st b).hexdump = hexPrefix h0 h1 (b + 1) ++ tail' ∧
      (hexPrefix h0 h1 (b + 1)).length + tail'.length = 58 ∧
      tail'.head? = some NUL := by
  have hi := hexPrefix_length h0 h1 b hb
  have hw := writeAt_prefix (hexPrefix h0 h1 b) tail [h0 b, h1 b, ' ', NUL]
    (3 * (b + b / 4)) hi.symm
  rw [lineStep_hexdump, hh, hw, hexPrefix_succ]
  by_cases hsp : b % 4 = 3 ∧ b ≠ 15
  · have h16 : ¬ (b + 1) % 16 = 0 := by omega
    have h4 : (b + 1) % 4 = 0 := by omega
    rw [if_neg h16, if_pos h4, if_pos hsp]
    have hw2 := writeAt_prefix (hexPrefix h0 h1 b ++ [h0 b, h1 b, ' '])
      (NUL :: tail.drop 4) threeSpaces (3 * (b + b / 4) + 3) (by
        rw [List.length_append, hi]; rfl)
    have hre : hexPrefix h0 h1 b ++ ([h0 b, h1 b, ' ', NUL] ++ List.drop
        [h0 b, h1 b, ' ', NUL].length tail)
        = (hexPrefix h0 h1 b ++ [h0 b, h1 b, ' ']) ++ (NUL :: tail.drop 4) := by
      simp
    rw [hre, hw2]
    refine ⟨NUL :: ((NUL :: tail.drop 4).drop 4), ?_, ?_, rfl⟩
    · simp [threeSpaces]
    · simp only [List.length_append, List.length_cons, List.length_nil, List.length_drop]
        at hlen ⊢
      omega
  · have hcase : (if (b + 1) % 16 = 0 then hexPrefix h0 h1 b ++ ([h0 b, h1 b, ' ', NUL]
          ++ List.drop [h0 b, h1 b, ' ', NUL].length tail)
        else if (b + 1) % 4 = 0 then
          writeAt (hexPrefix h0 h1 b ++ ([h0 b, h1 b, ' ', NUL]
            ++ List.drop [h0 b, h1 b, ' ', NUL].length tail)) (3 * (b + b / 4) + 3)
            threeSpaces
        else hexPrefix h0 h1 b ++ ([h0 b, h1 b, ' ', NUL]
          ++ List.drop [h0 b, h1 b, ' ', NUL].length tail))
        = hexPrefix h0 h1 b ++ ([h0 b, h1 b, ' ', NUL]
          ++ List.drop [h0 b, h1 b, ' ', NUL].length tail) := by
      by_cases h16 : (b + 1) % 16 = 0
      · rw [if_pos h16]
      · have h4 : ¬ (b + 1) % 4 = 0 := by omega
        rw [if_neg h16, if_neg h4]
    rw [hcase, if_neg hsp]
    refine ⟨NUL :: tail.drop 4, ?_, ?_, rfl⟩
    · simp
    · simp only [List.length_append, List.length_cons, List.length_nil, List.length_drop]
        at hlen ⊢
      omega

theorem lineStep_asc_inv (M : Nat) (h0 h1 a : Nat → Char) (rd : Nat → List Nat)
    (st : DumpState) (b : Nat) (hb : b < 16) (atail : List Char)
    (ha : st.ascdump = ascPrefix a b ++ atail)
    (hlen : (ascPrefix a b).length + atail.length = 18)
    (hlast : atail.getLast? = some NUL) :
    ∃ atail', (lineStep M h0 h1 a rd st b).ascdump = ascPrefix a (b + 1) ++ atail' ∧
      (ascPrefix a (b + 1)).length + atail'.length = 18 ∧
      atail'.getLast? = some NUL := by
  have hi := ascPrefix_length a b hb
  cases atail with
  | nil =>
    simp only [List.length_nil] at hlen
    omega
  | cons x t =>
    cases t with
    | nil =>
      simp only [List.length_cons, List.length_nil] at hlen
      omega
    | cons y t' =>
      have hs1 := set_prefix (ascPrefix a b) x (y :: t') (a b) (b + b / 8) hi.symm
      rw [lineStep_ascdump, ha, hs1, ascPrefix_succ]
      rw [List.getLast?_cons_cons] at hlast
      by_cases h7 : b = 7
      · have h16 : ¬ (b + 1) % 16 = 0 := by omega
        have h8 : (b + 1) % 8 = 0 := by omega
        rw [if_neg h16, if_pos h8, if_pos h7]
        have hs2 := set_prefix (ascPrefix a b ++ [a b]) y t' ' ' (b + b / 8 + 1) (by
          rw [List.length_append, hi]; rfl)
        have hre : ascPrefix a b ++ a b :: y :: t' = (ascPrefix a b ++ [a b]) ++ y :: t' := by
          simp
        rw [hre, hs2]
        cases t' with
        | nil =>
          simp only [List.length_cons, List.length_nil] at hlen
          omega
        | cons z t'' =>
          rw [List.getLast?_cons_cons] at hlast
          refine ⟨z :: t'', by simp, ?_, hlast⟩
          simp only [List.length_append, List.length_cons, List.length_nil] at hlen ⊢
          omega
      · have hcase : (if (b + 1) % 16 = 0 then ascPrefix a b ++ a b :: y :: t'
            else if (b + 1) % 8 = 0 then (ascPrefix a b ++ a b :: y :: t').set (b + b / 8 + 1) ' '
            else ascPrefix a b ++ a b :: y :: t') = ascPrefix a b ++ a b :: y :: t' := by
          by_cases h16 : (b + 1) % 16 = 0
          · rw [if_pos h16]
          · have h8 : ¬ (b + 1) % 8 = 0 := by omega
            rw [if_neg h16, if_neg h8]
        rw [hcase, if_neg h7]
        refine ⟨y :: t', by simp, ?_, hlast⟩
        simp only [List.length_append, List.length_cons, List.length_nil] at hlen ⊢
        omega

/-- One position of a line keeps the buffers in step with the two columns. -/
theorem lineStep_inv (M : Nat) (h0 h1 a : Nat → Char) (rd : Nat → List Nat)
    (st : DumpState) (b : Nat) (hb : b < 16) (hinv : LineInv h0 h1 a b st) :
    LineInv h0 h1 a (b + 1) (lineStep M h0 h1 a rd st b) := by
  obtain ⟨tail, atail, hh, hlen, _, ha, halen, hlast⟩ := hinv
  obtain ⟨tail', h1', h2', h3'⟩ := lineStep_hex_inv M h0 h1 a rd st b hb tail hh hlen
  obtain ⟨atail', a1', a2', a3'⟩ := lineStep_asc_inv M h0 h1 a rd st b hb atail ha halen hlast
  exact ⟨tail', atail', h1', h2', fun _ => h3', a1', a2', a3'⟩

/-- When the sixteen positions are done the buffers hold the two columns, each
followed by a NUL. -/
theorem lineInv_done (h0 h1 a : Nat → Char) (st : DumpState)
    (hinv : LineInv h0 h1 a 16 st) :
    st.hexdump = hexLine h0 h1 ++ [NUL] ∧ st.ascdump = ascLine a ++ [NUL] := by
  obtain ⟨tail, atail, hh, hlen, hhead, ha, halen, hlast⟩ := hinv
  have hl1 : (hexPrefix h0 h1 16).length = 57 := rfl
  have hl2 : (ascPrefix a 16).length = 17 := rfl
  have ht : tail = [NUL] := by
    cases tail with
    | nil => simp only [List.length_nil] at hlen; omega
    | cons x t =>
      have hx := hhead (by decide)
      simp only [List.head?_cons, Option.some.injEq] at hx
      cases t with
      | nil => rw [hx]
      | cons y t' => simp only [List.length_cons] at hlen; omega
  have hat : atail = [NUL] := by
    cases atail with
    | nil => simp only [List.length_nil] at halen; omega
    | cons x t =>
      cases t with
      | nil =>
        simp only [List.getLast?_singleton, Option.some.injEq] at hlast
        rw [hlast]
      | cons y t' => simp only [List.length_cons] at halen; omega
  rw [hh, ha, ht, hat]
  exact ⟨rfl, rfl⟩

theorem lineInv_lengths (h0 h1 a : Nat → Char) (b : Nat) (st : DumpState)
    (hinv : LineInv h0 h1 a b st) :
    st.hexdump.length = 58 ∧ st.ascdump.length = 18 := by
  obtain ⟨tail, atail, hh, hlen, _, ha, halen, _⟩ := hinv
  exact ⟨by rw [hh, List.length_append]; exact hlen,
    by rw [ha, List.length_append]; exact halen⟩

theorem dumpStep_eq (M : Nat) (address : Nat → Nat) (size q b : Nat) (st : DumpState)
    (hb : b < 16)
    (hinv : LineInv (fun b => hexHigh address size (16 * q + b))
      (fun b => hexLow address size (16 * q + b))
      (fun b => ascOf address size (16 * q + b)) b st)
    (hdone : st.bytesdone = 16 * q + b) :
    dumpStep M address size st (16 * q + b)
      = some (lineStep M (fun b => hexHigh address size (16 * q + b))
          (fun b => hexLow address size (16 * q + b))
          (fun b => ascOf address size (16 * q + b))
          (fun b => readOf size (16 * q + b)) st b) := by
  obtain ⟨hl, al⟩ := lineInv_lengths _ _ _ b st hinv
  have hmod : (16 * q + b) % 16 = b := by omega
  have hi : 3 * (b + b / 4) + 4 ≤ st.hexdump.length := by omega
  have hj : b + b / 8 < st.ascdump.length := by omega
  have hsp : (' ' : Char) ≠ NUL := by decide
  have hset : ∀ c, (st.ascdump.set (b + b / 8) c).length = 18 := by
    intro c; rw [List.length_set]; exact al
  have hwl : ∀ c0 c1, (writeAt st.hexdump (3 * (b + b / 4)) [c0, c1, ' ', NUL]).length = 58 := by
    intro c0 c1
    unfold writeAt
    simp only [List.length_append, List.length_take, List.length_drop, List.length_cons,
      List.length_nil]
    omega
  have hnulw : ∀ c0 c1, NUL ∈ writeAt st.hexdump (3 * (b + b / 4)) [c0, c1, ' ', NUL] := by
    intro c0 c1
    unfold writeAt
    simp
  have hfill : (if 16 * q + b < size then
        match strncpyAt st.hexdump (3 * (b + b / 4)) (sprintfHex (address (16 * q + b) % 256)) 4,
          storeAt st.ascdump (b + b / 8)
            (if isprint (address (16 * q + b) % 256) = true ∧ address (16 * q + b) % 256 ≠ 32
              then Char.ofNat (address (16 * q + b) % 256) else '.') with
        | some hex, some asc => some (hex, asc, st.reads ++ [16 * q + b])
        | _, _ => none
      else
        match strncpyAt st.hexdump (3 * (b + b / 4)) threeSpaces 4,
          storeAt st.ascdump (b + b / 8) '.' with
        | some hex, some asc => some (hex, asc, st.reads)
        | _, _ => none)
      = some (writeAt st.hexdump (3 * (b + b / 4))
          [hexHigh address size (16 * q + b), hexLow address size (16 * q + b), ' ', NUL],
          st.ascdump.set (b + b / 8) (ascOf address size (16 * q + b)),
          st.reads ++ readOf size (16 * q + b)) := by
    by_cases hlt : 16 * q + b < size
    · have e1 := strncpyAt_eq st.hexdump (3 * (b + b / 4))
        (hexDigit (address (16 * q + b) % 256 / 16))
        (hexDigit (address (16 * q + b) % 256 % 16)) ' '
        (hexDigit_ne_nul _ (by omega)) (hexDigit_ne_nul _ (by omega)) hsp hi
      simp only [hlt, if_true, sprintfHex, e1, storeAt_eq _ _ _ hj, hexHigh, hexLow, ascOf,
        readOf]
    · have e1 := strncpyAt_eq st.hexdump (3 * (b + b / 4)) ' ' ' ' ' ' hsp hsp hsp hi
      simp only [hlt, if_false, threeSpaces, e1, storeAt_eq _ _ _ hj, hexHigh, hexLow, ascOf,
        readOf, List.append_nil]
  have hm16 : (st.bytesdone + 1) % 16 = (b + 1) % 16 := by omega
  have hm8 : (st.bytesdone + 1) % 8 = (b + 1) % 8 := by omega
  have hm4 : (st.bytesdone + 1) % 4 = (b + 1) % 4 := by omega
  unfold dumpStep
  simp only [hmod, hfill, hm16, hm8, hm4]
  unfold lineStep
  by_cases h16 : (b + 1) % 16 = 0
  · simp only [h16, if_true]
    have hrep : ∃ line, report M (writeAt st.hexdump (3 * (b + b / 4))
        [hexHigh address size (16 * q + b), hexLow address size (16 * q + b), ' ', NUL])
        (st.ascdump.set (b + b / 8) (ascOf address size (16 * q + b))) = some line := by
      obtain ⟨tail, atail, _, _, _, ha, halen, hlast⟩ := hinv
      obtain ⟨atail', ha', _, hlast'⟩ := lineStep_asc_inv M
        (fun b => hexHigh address size (16 * q + b)) (fun b => hexLow address size (16 * q + b))
        (fun b => ascOf address size (16 * q + b)) (fun b => readOf size (16 * q + b))
        st b hb atail ha halen hlast
      rw [lineStep_ascdump, if_pos h16] at ha'
      have hnula : NUL ∈ st.ascdump.set (b + b / 8) (ascOf address size (16 * q + b)) := by
        rw [ha']
        exact List.mem_append_of_mem_right _ (List.mem_of_getLast?_eq_some hlast')
      unfold report
      rw [if_pos ⟨hnulw _ _, hnula⟩]
      exact ⟨_, rfl⟩
    obtain ⟨line, hline⟩ := hrep
    simp only [reported, hline, Option.toList]
  · simp only [h16, if_false]
    have e8 : (if (b + 1) % 8 = 0 then
          storeAt (st.ascdump.set (b + b / 8) (ascOf address size (16 * q + b)))
            (b + b / 8 + 1) ' '
        else some (st.ascdump.set (b + b / 8) (ascOf address size (16 * q + b))))
        = some (if (b + 1) % 8 = 0 then
            (st.ascdump.set (b + b / 8) (ascOf address size (16 * q + b))).set
              (b + b / 8 + 1) ' '
          else st.ascdump.set (b + b / 8) (ascOf address size (16 * q + b))) := by
      by_cases h8 : (b + 1) % 8 = 0
      · rw [if_pos h8, if_pos h8, storeAt_eq _ _ _ (by rw [hset]; omega)]
      · rw [if_neg h8, if_neg h8]
    have e4 : (if (b + 1) % 4 = 0 then
          strncpyAt (writeAt st.hexdump (3 * (b + b / 4))
            [hexHigh address size (16 * q + b), hexLow address size (16 * q + b), ' ', NUL])
            (3 * (b + b / 4) + 3) threeSpaces 4
        else some (writeAt st.hexdump (3 * (b + b / 4))
          [hexHigh address size (16 * q + b), hexLow address size (16 * q + b), ' ', NUL]))
        = some (if (b + 1) % 4 = 0 then
            writeAt (writeAt st.hexdump (3 * (b + b / 4))
              [hexHigh address size (16 * q + b), hexLow address size (16 * q + b), ' ', NUL])
              (3 * (b + b / 4) + 3) threeSpaces
          else writeAt st.hexdump (3 * (b + b / 4))
            [hexHigh address size (16 * q + b), hexLow address size (16 * q + b), ' ', NUL]) := by
      by_cases h4 : (b + 1) % 4 = 0
      · rw [if_pos h4, if_pos h4]
        exact strncpyAt_eq _ _ ' ' ' ' ' ' hsp hsp hsp (by rw [hwl]; omega)
      · rw [if_neg h4, if_neg h4]
    simp only [e8, e4]

/-! ## `dumpmemory`: line by line -/

theorem hexLine_no_nul (h0 h1 : Nat → Char) (hh0 : ∀ b, h0 b ≠ NUL)
    (hh1 : ∀ b, h1 b ≠ NUL) : NUL ∉ hexLine h0 h1 := by
  unfold hexLine
  intro h
  obtain ⟨b, _, hb⟩ := List.mem_flatMap.mp h
  have hsp : NUL ≠ (' ' : Char) := by decide
  rcases List.mem_append.mp hb with hb | hb
  · simp only [List.mem_cons, List.mem_singleton, List.not_mem_nil, or_false] at hb
    rcases hb with hb | hb | hb
    · exact hh0 b hb.symm
    · exact hh1 b hb.symm
    · exact hsp hb
  · split at hb
    · simp only [List.mem_cons, List.mem_singleton, List.not_mem_nil, or_false, or_self] at hb
      exact hsp hb
    · exact absurd hb (List.not_mem_nil _)

theorem ascLine_no_nul (a : Nat → Char) (ha : ∀ b, a b ≠ NUL) : NUL ∉ ascLine a := by
  unfold ascLine
  intro h
  obtain ⟨b, _, hb⟩ := List.mem_flatMap.mp h
  have hsp : NUL ≠ (' ' : Char) := by decide
  rcases List.mem_cons.mp hb with hb | hb
  · exact ha b hb.symm
  · split at hb
    · simp only [List.mem_singleton] at hb
      exact hsp hb
    · exact absurd hb (List.not_mem_nil _)

theorem reported_line (M : Nat) (address : Nat → Nat) (size q : Nat) :
    reported M (hexLineOf address size q ++ [NUL]) (ascLineOf address size q ++ [NUL])
      = [lineOf M address size q] := by
  have h1 : cstr (hexLineOf address size q ++ [NUL]) = hexLineOf address size q :=
    cstr_terminated _ [] (hexLine_no_nul _ _ (fun b => hexHigh_ne_nul address size _)
      (fun b => hexLow_ne_nul address size _))
  have h2 : cstr (ascLineOf address size q ++ [NUL]) = ascLineOf address size q :=
    cstr_terminated _ [] (ascLine_no_nul _ (fun b => ascOf_ne_nul address size _))
  unfold reported report
  rw [if_pos ⟨by simp, by simp⟩, h1, h2]
  rfl

theorem lineInv_restart (h0 h1 a h0' h1' a' : Nat → Char) (st : DumpState)
    (hinv : LineInv h0 h1 a 16 st) : LineInv h0' h1' a' 0 st := by
  obtain ⟨hh, ha⟩ := lineInv_done h0 h1 a st hinv
  refine ⟨st.hexdump, st.ascdump, rfl, ?_, fun h => absurd h (Nat.lt_irrefl 0), rfl, ?_, ?_⟩
  · rw [hh]; rfl
  · rw [ha]; rfl
  · rw [ha]; simp

/-- The loop over the positions `b` to 15 of line `q`. -/
theorem dumpLoop_line (M : Nat) (address : Nat → Nat) (size q : Nat) :
    ∀ (n b : Nat) (st : DumpState), b + n = 16 →
      LineInv (fun b => hexHigh address size (16 * q + b))
        (fun b => hexLow address size (16 * q + b))
        (fun b => ascOf address size (16 * q + b)) b st →
      st.bytesdone = 16 * q + b →
      ∃ st', dumpLoop M address size ((List.range' b n).map (fun b => 16 * q + b)) st
          = some st' ∧
        LineInv (fun b => hexHigh address size (16 * q + b))
          (fun b => hexLow address size (16 * q + b))
          (fun b => ascOf address size (16 * q + b)) 16 st' ∧
        st'.bytesdone = 16 * q + 16 ∧
        st'.lines = st.lines ++ (if n = 0 then [] else [lineOf M address size q]) ∧
        st'.reads = st.reads
          ++ ((List.range' b n).map (fun b => 16 * q + b)).flatMap (readOf size) := by
  intro n
  induction n with
  | zero =>
    intro b st hb hinv hdone
    have hb16 : b = 16 := by omega
    subst hb16
    exact ⟨st, rfl, hinv, hdone, by simp, by simp⟩
  | succ n ih =>
    intro b st hb hinv hdone
    have hb16 : b < 16 := by omega
    have hstep := dumpStep_eq M address size q b st hb16 hinv hdone
    have hinv1 := lineStep_inv M _ _ _ (fun b => readOf size (16 * q + b)) st b hb16 hinv
    obtain ⟨st', hloop, hinv', hdone', hlines', hreads'⟩ :=
      ih (b + 1) _ (by omega) hinv1 (by rw [lineStep_bytesdone, hdone]; omega)
    refine ⟨st', ?_, hinv', hdone', ?_, ?_⟩
    · simp only [List.range'_succ, List.map_cons, dumpLoop, hstep]
      exact hloop
    · rw [hlines', lineStep_lines]
      by_cases hn : n = 0
      · have hb15 : (b + 1) % 16 = 0 := by omega
        have hb' : b + 1 = 16 := by omega
        rw [if_pos hb15, if_pos hn]
        rw [hb'] at hinv1
        obtain ⟨e1, e2⟩ := lineInv_done _ _ _ _ hinv1
        rw [e1, e2]
        have := reported_line M address size q
        unfold hexLineOf ascLineOf at this
        rw [this]
        simp
      · have hb15 : ¬ (b + 1) % 16 = 0 := by omega
        rw [if_neg hb15, if_neg hn]
        simp
    · rw [hreads', lineStep_reads]
      simp [List.range'_succ]

theorem dumpLoop_append (M : Nat) (address : Nat → Nat) (size : Nat) :
    ∀ (l1 l2 : List Nat) (st : DumpState),
      dumpLoop M address size (l1 ++ l2) st
        = (dumpLoop M address size l1 st).bind (dumpLoop M address size l2) := by
  intro l1
  induction l1 with
  | nil => intro l2 st; rfl
  | cons byte rest ih =>
    intro l2 st
    simp only [List.cons_append, dumpLoop]
    cases dumpStep M address size st byte with
    | none => rfl
    | some st' => exact ih l2 st'

/-- The loop over the first `n` lines: it ends, having reported one message
for each line and read the bytes of the region among the `16 * n` indices. -/
theorem dumpLoop_lines (M : Nat) (address : Nat → Nat) (size : Nat) :
    ∀ n : Nat, ∃ st,
      dumpLoop M address size (List.range (16 * n))
        ⟨List.replicate 58 NUL, List.replicate 18 NUL, 0, [], []⟩ = some st ∧
      LineInv (fun b => hexHigh address size (16 * n + b))
        (fun b => hexLow address size (16 * n + b))
        (fun b => ascOf address size (16 * n + b)) 0 st ∧
      st.bytesdone = 16 * n ∧
      st.lines = (List.range n).map (lineOf M address size) ∧
      st.reads = (List.range (16 * n)).flatMap (readOf size) := by
  intro n
  induction n with
  | zero =>
    refine ⟨_, rfl, ⟨List.replicate 58 NUL, List.replicate 18 NUL, rfl, rfl,
      fun h => absurd h (Nat.lt_irrefl 0), rfl, rfl, by decide⟩, rfl, rfl, rfl⟩
  | succ n ih =>
    obtain ⟨st, hloop, hinv, hdone, hlines, hreads⟩ := ih
    obtain ⟨st', hloop', hinv', hdone', hlines', hreads'⟩ :=
      dumpLoop_line M address size n 16 0 st rfl hinv (by rw [hdone]; rfl)
    have hrange : List.range (16 * (n + 1))
        = List.range (16 * n) ++ (List.range' 0 16).map (fun b => 16 * n + b) := by
      rw [Nat.mul_succ, List.range_add]
      rfl
    refine ⟨st', ?_, lineInv_restart _ _ _ _ _ _ st' hinv', by rw [hdone']; ring, ?_, ?_⟩
    · rw [hrange, dumpLoop_append, hloop]
      exact hloop'
    · rw [hlines', hlines, List.range_succ, List.map_append]
      simp
    · rw [hreads', hreads, hrange, List.flatMap_append]

theorem dumplen_mod (size : Nat) : dumplen size % 16 = 0 := by
  unfold dumplen
  have h : (2 : Nat) ^ 32 = 4294967296 := by norm_num
  rw [h]
  split <;> omega

theorem dumplen_of_small (size : Nat) (h : size + 15 < 2 ^ 32) :
    dumplen size = 16 * ((size + 15) / 16) := by
  unfold dumplen
  have h32 : (2 : Nat) ^ 32 = 4294967296 := by norm_num
  rw [h32] at h ⊢
  split <;> omega

theorem flatMap_readOf (size : Nat) :
    ∀ N : Nat, (List.range N).flatMap (readOf size) = List.range (min N size) := by
  intro N
  induction N with
  | zero => simp
  | succ N ih =>
    rw [List.range_succ, List.flatMap_append, ih]
    unfold readOf
    by_cases h : N < size
    · have hmin : min (N + 1) size = min N size + 1 := by omega
      have hN : min N size = N := by omega
      simp [h, hmin, hN, List.range_succ]
    · have hmin : min (N + 1) size = min N size := by omega
      simp [h, hmin]

/-- What `dumpmemory` does: it ends, having reported the messages of the
lines `0` to `dumplen / 16 - 1` in turn and read, once each and in order, the
indices below `size` and below `dumplen`. -/
theorem dumpmemory_eq (M : Nat) (address : Nat → Nat) (size : Nat) :
    ∃ st, dumpmemory M address size = some st ∧
      st.lines = (List.range (dumplen size / 16)).map (lineOf M address size) ∧
      st.reads = List.range (min (dumplen size) size) := by
  have hd : dumplen size = 16 * (dumplen size / 16) := by
    have := dumplen_mod size
    omega
  obtain ⟨st, hloop, _, _, hlines, hreads⟩ :=
    dumpLoop_lines M address size (dumplen size / 16)
  refine ⟨st, ?_, hlines, ?_⟩
  · unfold dumpmemory
    rw [hd]
    exact hloop
  · rw [hreads, ← hd, flatMap_readOf]

set_option maxHeartbeats 4000000 in
theorem line_positions (h0 h1 a : Nat → Char) (b : Nat) (hb : b < 16) :
    ("    ".toList ++ hexLine h0 h1 ++ "    ".toList ++ ascLine a
        ++ ['\n'])[4 + 3 * (b + b / 4)]? = some (h0 b) ∧
    ("    ".toList ++ hexLine h0 h1 ++ "    ".toList ++ ascLine a
        ++ ['\n'])[4 + 3 * (b + b / 4) + 1]? = some (h1 b) ∧
    ("    ".toList ++ hexLine h0 h1 ++ "    ".toList ++ ascLine a
        ++ ['\n'])[65 + (b + b / 8)]? = some (a b) := by
  interval_cases b <;> exact ⟨rfl, rfl, rfl⟩

/-! ## The properties of `dumpmemory` -/

/-- C17.  Line count of `dumpmemory`: for a region size with
`size + 15 < 2 ^ 32` the call ends having reported exactly `ceil (size / 16)`
messages (none when `size` is 0), the message of line `q` showing the sixteen
positions `16 * q` to `16 * q + 15` (57 characters of hexadecimal column, 17
of ASCII column), padded where the index is not below `size`; and it has read
the indices `0` to `size - 1` once each, and no other. -/
theorem dumpmemory_line_count (M : Nat) (address : Nat → Nat) (size : Nat)
    (h : size + 15 < 2 ^ 32) :
    ∃ st, dumpmemory M address size = some st ∧
      st.lines.length = (size + 15) / 16 ∧
      st.lines = (List.range ((size + 15) / 16)).map (lineOf M address size) ∧
      (∀ q, (hexLineOf address size q).length = 57 ∧ (ascLineOf address size q).length = 17) ∧
      st.reads = List.range size := by
  obtain ⟨st, hst, hlines, hreads⟩ := dumpmemory_eq M address size
  have hd := dumplen_of_small size h
  have hq : dumplen size / 16 = (size + 15) / 16 := by omega
  have hmin : min (dumplen size) size = size := by omega
  rw [hq] at hlines
  rw [hmin] at hreads
  exact ⟨st, hst, by rw [hlines]; simp, hlines, fun q => ⟨rfl, rfl⟩, hreads⟩

/-- C17 on a region of 18 bytes: two messages, and the indices 0 to 17 read. -/
theorem dumpmemory_line_count_witness :
    ∃ st, dumpmemory 511 (fun i => 65 + i) 18 = some st ∧
      st.lines.length = (18 + 15) / 16 ∧
      st.lines = (List.range ((18 + 15) / 16)).map (lineOf 511 (fun i => 65 + i) 18) ∧
      (∀ q, (hexLineOf (fun i => 65 + i) 18 q).length = 57 ∧
        (ascLineOf (fun i => 65 + i) 18 q).length = 17) ∧
      st.reads = List.range 18 :=
  dumpmemory_line_count 511 (fun i => 65 + i) 18 (by norm_num)

/-- C18, as amended.  Rendering of `dumpmemory`: for every byte of the region
that is dumped (index `k` below `size` and below the dump length), the message
of line `k / 16`, when messages of 83 characters are not cut, has the byte as
two upper-case hexadecimal digits in the hexadecimal column and, in the ASCII
column, the character of the byte when it is printable and not the space, and
`.` otherwise. -/
theorem dumpmemory_renders_byte (M : Nat) (address : Nat → Nat) (size k : Nat)
    (hM : 83 ≤ M) (hk : k < size) (hd : k < dumplen size) :
    ∃ st msg, dumpmemory M address size = some st ∧
      st.lines[k / 16]? = some msg ∧
      msg[4 + 3 * (k % 16 + k % 16 / 4)]? = some (hexDigit (address k % 256 / 16)) ∧
      msg[4 + 3 * (k % 16 + k % 16 / 4) + 1]? = some (hexDigit (address k % 256 % 16)) ∧
      msg[65 + (k % 16 + k % 16 / 8)]? =
        some (if isprint (address k % 256) = true ∧ address k % 256 ≠ 32 then
          Char.ofNat (address k % 256) else '.') := by
  obtain ⟨st, hst, hlines, _⟩ := dumpmemory_eq M address size
  have hmod := dumplen_mod size
  have hq : k / 16 < dumplen size / 16 := by omega
  have hb : k % 16 < 16 := Nat.mod_lt _ (by decide)
  have hkk : 16 * (k / 16) + k % 16 = k := Nat.div_add_mod k 16
  obtain ⟨p1, p2, p3⟩ := line_positions
    (fun b => hexHigh address size (16 * (k / 16) + b))
    (fun b => hexLow address size (16 * (k / 16) + b))
    (fun b => ascOf address size (16 * (k / 16) + b)) (k % 16) hb
  simp only [hkk] at p1 p2 p3
  refine ⟨st, lineOf M address size (k / 16), hst, ?_, ?_, ?_, ?_⟩
  · rw [hlines, List.getElem?_map, List.getElem?_range hq]
    rfl
  · unfold lineOf hexLineOf ascLineOf
    rw [List.getElem?_take, if_pos (by omega), p1]
    simp only [hexHigh, hk, if_true]
  · unfold lineOf hexLineOf ascLineOf
    rw [List.getElem?_take, if_pos (by omega), p2]
    simp only [hexLow, hk, if_true]
  · unfold lineOf hexLineOf ascLineOf
    rw [List.getElem?_take, if_pos (by omega), p3]
    simp only [ascOf, hk, if_true]

/-- C18 (amended) on a region of 18 bytes `A`, `B`, ...: byte 17, the letter
`R` (`0x52`), is the second position of the second message. -/
theorem dumpmemory_renders_byte_witness :
    ∃ st msg, dumpmemory 511 (fun i => 65 + i) 18 = some st ∧
      st.lines[17 / 16]? = some msg ∧
      msg[4 + 3 * (17 % 16 + 17 % 16 / 4)]? = some (hexDigit ((65 + 17) % 256 / 16)) ∧
      msg[4 + 3 * (17 % 16 + 17 % 16 / 4) + 1]? = some (hexDigit ((65 + 17) % 256 % 16)) ∧
      msg[65 + (17 % 16 + 17 % 16 / 8)]? =
        some (if isprint ((65 + 17) % 256) = true ∧ (65 + 17) % 256 ≠ 32 then
          Char.ofNat ((65 + 17) % 256) else '.') :=
  dumpmemory_renders_byte 511 (fun i => 65 + i) 18 17 (by decide) (by decide) (by decide)

/-- C18 fails as stated.  The byte `0x20`, the space, is a printable
character (`isprint` holds for it), yet the ASCII column of the message shows
`.` for it, not the space: the loop stores the byte only when it is printable
and not the space. -/
theorem dumpmemory_renders_space_as_dot :
    isprint 0x20 = true ∧ Char.ofNat 0x20 = ' ' ∧
    (dumpmemory 511 (fun _ => 0x20) 1).map (fun st => st.lines)
      = some ["    20                                                           ........ ........\n".toList] ∧
    ("    20                                                           ........ ........\n".toList)[65]?
      = some '.' := by
  decide

end VLD
